import Mathlib

/-!
Verification of the event-sync-engine core (HLC, ShardManager, SyncEngine)
against its natural-language specification, via a shallow embedding of the
TypeScript sources in Lean.

Conventions of the embedding:
* JavaScript numbers that only ever hold non-negative integers are `Nat`.
* The JavaScript value `-Infinity` (which `Math.max(...[])` produces) is
  modelled by `none` in an `Option Nat`; `some n` is the ordinary number `n`.
* `Date.now()` is passed in explicitly as a `now : Nat` argument.
* The key-value store is an association list `(Key × Val)` with JS-object
  semantics: `set` updates an existing key in place and appends new keys,
  `getAll` filters in insertion order.
-/

namespace EventSync

/-! ## Hybrid Logical Clock (src/HLC.ts) -/

structure HLCState where
  time : Nat
  counter : Nat
deriving DecidableEq, Repr

/-- Embedding of `HLC.advance` (HLC.ts lines 32-43); `now` is `Date.now()`. -/

def hlcAdvance (st : HLCState) (now : Nat) : HLCState :=
  if now > st.time then ⟨now, 0⟩ else ⟨st.time, st.counter + 1⟩

/-- Embedding of `HLC.update` (HLC.ts lines 49-63); `now` is `Date.now()`. -/

def hlcUpdate (st : HLCState) (remoteTime remoteCounter now : Nat) : HLCState :=
  let maxTime := max (max st.time remoteTime) now
  if maxTime = st.time ∧ maxTime = remoteTime then
    ⟨st.time, max st.counter remoteCounter + 1⟩
  else if maxTime = remoteTime then
    ⟨remoteTime, remoteCounter + 1⟩
  else
    ⟨maxTime, 0⟩

/-- The lexicographic strict order on `(time, counter)` pairs used by the
spec to state the `update` postcondition. -/

def pairLt (a b : Nat × Nat) : Prop :=
  a.1 < b.1 ∨ (a.1 = b.1 ∧ a.2 < b.2)

instance : DecidablePred (fun ab : (Nat × Nat) × (Nat × Nat) => pairLt ab.1 ab.2) := by
  intro ab; unfold pairLt; infer_instance

instance (a b : Nat × Nat) : Decidable (pairLt a b) := by
  unfold pairLt; infer_instance

/-! ### Claims C1 and C10 -/


/-! ## HLC comparator (HLC.ts lines 69-87) and claim C5 -/

/-- JS string `<` on device ids: lexicographic comparison of the UTF-16
code-unit sequences. -/

def jsStrLt : List Nat → List Nat → Bool
  | [], [] => false
  | [], _ :: _ => true
  | _ :: _, [] => false
  | x :: xs, y :: ys => (x < y : Bool) || ((x == y) && jsStrLt xs ys)

/-- The sort key of an event: `(hlc_time, hlc_counter, deviceId)`, the
device id given as its code-unit sequence. -/

abbrev HKey := Nat × Nat × List Nat

/-- Embedding of `HLC.compare` (HLC.ts lines 69-87): lexicographic on
`(time, counter, deviceId)`, returning `-1`, `0` or `1`. -/

def hlcCompare (a b : HKey) : Int :=
  if a.1 < b.1 then -1
  else if b.1 < a.1 then 1
  else if a.2.1 < b.2.1 then -1
  else if b.2.1 < a.2.1 then 1
  else if jsStrLt a.2.2 b.2.2 then -1
  else if jsStrLt b.2.2 a.2.2 then 1
  else 0

/-- The strict order on HLC keys that `hlcCompare` decides. -/

def hkeyLt (a b : HKey) : Prop :=
  a.1 < b.1 ∨ (a.1 = b.1 ∧ (a.2.1 < b.2.1 ∨ (a.2.1 = b.2.1 ∧ jsStrLt a.2.2 b.2.2 = true)))

/-- An event as seen by the replay sorter: its HLC sort key
`(hlc_time, hlc_counter, deviceId)` paired with an opaque payload. -/

abbrev SortEvent := HKey × Nat

/-- The ordering used when sorting events for replay: the comparator is
non-positive. -/

def eventLe (a b : SortEvent) : Prop := hlcCompare a.1 b.1 ≤ 0

instance (a b : SortEvent) : Decidable (eventLe a b) := by
  unfold eventLe; infer_instance


/-! ## Shard manager (src/ShardManager.ts) -/

/-- A JS shard index: `some n` is an ordinary number, `none` is the JS
value `-Infinity` (which `Math.max(...[])` returns). -/

abbrev SIdx := Option Nat

/-- JS `Math.max` on two values that may be `-Infinity`. -/

def jsMax : SIdx → SIdx → SIdx
  | none, x => x
  | some a, none => some a
  | some a, some b => some (max a b)

/-- `Math.max(...l)`: `-Infinity` when the list is empty. -/

def jsMaxList (l : List SIdx) : SIdx := l.foldl jsMax none

/-- `-Infinity + 1 = -Infinity`; `n + 1` otherwise (the `currentShard++`). -/

def sidxSucc : SIdx → SIdx
  | none => none
  | some n => some (n + 1)

/-- JS `Set.add` (insertion order, no duplicates). -/

def setAdd (l : List SIdx) (x : SIdx) : List SIdx := if x ∈ l then l else l ++ [x]

/-- `new Set(list)`: insertion-order deduplication. -/

def setFrom (l : List SIdx) : List SIdx := l.foldl setAdd []

structure SM where
  current : SIdx
  active : List SIdx
deriving DecidableEq, Repr

/-- Embedding of the `ShardManager` constructor (ShardManager.ts lines
15-19): `currentShard = Math.max(...existingShards)`,
`activeShards = new Set(existingShards)`. -/

def smInit (existingShards : List SIdx) : SM :=
  ⟨jsMaxList existingShards, setFrom existingShards⟩

/-- `new ShardManager()` with the default argument `[0]`. -/

def smInitDefault : SM := smInit [some 0]

/-- Embedding of `ShardManager.createNewShard` (lines 58-62). -/

def smCreateNew (sm : SM) : SM × SIdx :=
  let c := sidxSucc sm.current
  (⟨c, setAdd sm.active c⟩, c)

/-- Numeric comparison used by `getActiveShards`'s `sort((a, b) => a - b)`;
`-Infinity` sorts first. -/

def sidxLe (a b : SIdx) : Bool :=
  match a, b with
  | none, _ => true
  | some _, none => false
  | some x, some y => x ≤ y

/-- Stable insertion into a sorted list (the model of JS stable `sort`). -/

def insertSortedBy (le : α → α → Bool) (x : α) : List α → List α
  | [] => [x]
  | y :: ys => if le x y then x :: y :: ys else y :: insertSortedBy le x ys

def insertionSortBy (le : α → α → Bool) : List α → List α
  | [] => []
  | x :: xs => insertSortedBy le x (insertionSortBy le xs)

/-- Embedding of `ShardManager.getActiveShards` (lines 31-33). -/

def smGetActive (sm : SM) : List SIdx := insertionSortBy sidxLe sm.active

/-! ## Events and size estimation (ShardManager.ts lines 39-77) -/

/-- An event record.  `opLen` is the length of `JSON.stringify` of the
opaque `op: {type, data}` object, which the engine never inspects. -/

structure Event where
  increment : Nat
  hlc_time : Nat
  hlc_counter : Nat
  opLen : Nat
deriving DecidableEq, Repr

/-- Number of characters in the decimal representation of `n`. -/

def digitsLen (n : Nat) : Nat := (Nat.toDigits 10 n).length

/-- Length of `JSON.stringify` of one event object
`{"increment":i,"hlc_time":t,"hlc_counter":c,"op":<op>}`: 47 characters of
fixed syntax plus the numbers and the op text. -/

def eventJsonLen (ev : Event) : Nat :=
  47 + digitsLen ev.increment + digitsLen ev.hlc_time + digitsLen ev.hlc_counter + ev.opLen

/-- Length of `JSON.stringify` of an array of events. -/

def eventsJsonLen (l : List Event) : Nat :=
  2 + (l.map eventJsonLen).sum + (l.length - 1)

/-- `MAX_SHARD_SIZE = 7 * 1024` (constants.ts). -/

def MAX_SHARD_SIZE : Nat := 7 * 1024

def PROTOCOL_VERSION : Nat := 1

/-- Embedding of `ShardManager.estimateSize`: UTF-16 worst case, two bytes
per serialized character. -/

def estimateSize (l : List Event) : Nat := 2 * eventsJsonLen l

/-- Embedding of `ShardManager.shouldCreateNewShard` (lines 39-42). -/

def smShouldCreateNewShard (l : List Event) : Bool := estimateSize l ≥ MAX_SHARD_SIZE

/-- Embedding of `ShardManager.validateEventSize` (lines 48-53): `true`
means the `Event size exceeds maximum shard size` error is thrown. -/

def smValidateEventSizeFails (ev : Event) : Bool := estimateSize [ev] ≥ MAX_SHARD_SIZE

/-! ## The key-value store (adapter contract, MemoryStorage semantics) -/

/-- The four key families of the data model, keyed by device id.  A shard
key's index is an `SIdx` because the engine can produce the literal key
`e_<P>_-Infinity` after the shard manager is rebuilt from an empty list. -/

inductive Key
  | m (d : String)
  | e (d : String) (i : SIdx)
  | b (d : String)
  | s (d : String)
deriving DecidableEq, Repr

structure Meta where
  version : Nat
  last_increment : Nat
  shards : List SIdx
deriving DecidableEq, Repr

structure BaselineRec where
  includes : List (String × Nat)
  stateBlob : Nat
deriving DecidableEq, Repr

structure SeenVec where
  increments : List (String × Nat)
  lastActive : Nat
deriving DecidableEq, Repr

inductive Val
  | meta (mv : Meta)
  | events (evs : List Event)
  | baseline (bv : BaselineRec)
  | seen (sv : SeenVec)
deriving DecidableEq, Repr

/-- The store content: an association list in insertion order with unique
keys (JS `Map` / object semantics). -/

abbrev Store := List (Key × Val)

/-- First-match association lookup. -/

def alookup [DecidableEq κ] : List (κ × β) → κ → Option β
  | [], _ => none
  | (k, v) :: rest, k' => if k' = k then some v else alookup rest k'

/-- JS map/object write of one key: update in place, or append if new. -/

def setOne (st : Store) (k : Key) (v : Val) : Store :=
  match st with
  | [] => [(k, v)]
  | (k', v') :: rest => if k = k' then (k', v) :: rest else (k', v') :: setOne rest k v

/-- `storage.set(items)`: sequential batch write. -/

def setMany (st : Store) : List (Key × Val) → Store
  | [] => st
  | (k, v) :: rest => setMany (setOne st k v) rest

/-- `storage.remove(keys)`. -/

def removeKeys (st : Store) (ks : List Key) : Store :=
  st.filter (fun kv => decide (kv.1 ∉ ks))

def isMKey : Key → Bool | .m _ => true | _ => false

def isEKey : Key → Bool | .e _ _ => true | _ => false

def isBKey : Key → Bool | .b _ => true | _ => false

def isSKey : Key → Bool | .s _ => true | _ => false

/-- `storage.getAll('^(m_|e_)')`. -/

def getAllME (st : Store) : Store := st.filter (fun kv => isMKey kv.1 || isEKey kv.1)

/-- Keys of the store are pairwise distinct (true of any JS object/map). -/

def storeWF (st : Store) : Prop := (st.map Prod.fst).Nodup

/-- Reading a shard value: `(await get(key)) || []` with the `Event[]` cast. -/

def asEvents : Option Val → List Event
  | some (.events evs) => evs
  | _ => []

/-- Reading a meta value; the default mirrors `version ?? 1`,
`shards || [0]` and the falsy behaviour of a missing `last_increment`. -/

def asMetaV : Val → Meta
  | .meta mv => mv
  | _ => ⟨1, 0, [some 0]⟩

def asBaseV : Val → BaselineRec
  | .baseline bv => bv
  | _ => ⟨[], 0⟩

/-- Reading a seen vector; a missing or non-seen value acts like
`lastActive = 0` and is skipped by the eviction loop. -/

def asSeen : Option Val → Option SeenVec
  | some (.seen sv) => some sv
  | _ => none

/-! ## Engine state (SyncEngine.ts fields) -/

inductive EngErr
  | busy
  | eventTooLarge
  | unsupportedVersion (d : String)
  | storeFail (msg : String)
deriving DecidableEq, Repr

structure Config where
  baselineThreshold : Nat
  gcFrequency : Nat
  removeInactiveDevices : Bool
  inactiveDeviceTimeout : Nat
  hasBaselineHandler : Bool
deriving DecidableEq, Repr

/-- The in-memory engine state: `this.hlc`, `this.shardManager`,
`this.deviceState` (`last_increment`, `current_shard`,
`events_since_baseline_update`, `syncs_since_gc`), `this.knownIncrements`
and `this.lastActivityUpdate`. -/

structure Engine where
  hlc : HLCState
  sm : SM
  last_increment : Nat
  current_shard : SIdx
  events_since_baseline_update : Nat
  syncs_since_gc : Nat
  knownIncrements : List (String × Nat)
  lastActivityUpdate : Nat
deriving DecidableEq, Repr

/-- JS object update `ki[d] = v`: in-place update or append. -/

def kiSet (ki : List (String × Nat)) (d : String) (v : Nat) : List (String × Nat) :=
  match ki with
  | [] => [(d, v)]
  | (d', v') :: rest => if d = d' then (d', v) :: rest else (d', v') :: kiSet rest d v

/-- JS `delete ki[d]`. -/

def kiRemove (ki : List (String × Nat)) (d : String) : List (String × Nat) :=
  ki.filter (fun p => decide (p.1 ≠ d))

def oneDayMs : Nat := 24 * 60 * 60 * 1000

/-! ## Engine operations (SyncEngine.ts) -/

/-- The inner `for (const shardIdx of shards)` loop of `sync`/`bootstrap`:
collect the events of device `d` with `increment > known`, reading shard
values from the `allData` snapshot. -/

def collectShardEvents (allData : Store) (d : String) (shards : List SIdx) (known : Nat) :
    List (Event × String) :=
  match shards with
  | [] => []
  | i :: rest =>
    ((asEvents (alookup allData (Key.e d i))).filter
        (fun ev => decide (ev.increment > known))).map (fun ev => (ev, d)) ++
      collectShardEvents allData d rest known

/-- The meta-scanning loop of `sync` (SyncEngine.ts lines 421-454): walks
the `getAll('^(m_|e_)')` snapshot in order, validates newly discovered
devices, collects unseen events and advances `knownIncrements`. -/

def processMetas (dev : String) (allData : Store) :
    List (Key × Val) → List (String × Nat) → List (Event × String) →
      Except EngErr (List (String × Nat) × List (Event × String))
  | [], ki, acc => .ok (ki, acc)
  | (Key.m d, v) :: rest, ki, acc =>
    if d = dev then processMetas dev allData rest ki acc
    else
      let mv := asMetaV v
      match alookup ki d with
      | none =>
        if mv.version < PROTOCOL_VERSION then .error (.unsupportedVersion d)
        else
          if mv.last_increment > 0 then
            processMetas dev allData rest (kiSet (kiSet ki d 0) d mv.last_increment)
              (acc ++ collectShardEvents allData d mv.shards 0)
          else processMetas dev allData rest (kiSet ki d 0) acc
      | some known =>
        if mv.last_increment > known then
          processMetas dev allData rest (kiSet ki d mv.last_increment)
            (acc ++ collectShardEvents allData d mv.shards known)
        else processMetas dev allData rest ki acc
  | _ :: rest, ki, acc => processMetas dev allData rest ki acc

/-- UTF-16 code units of a device id. -/

def toCU (d : String) : List Nat := d.data.map Char.toNat

/-- The comparator closure passed to `allEvents.sort` in `sync` and
`bootstrap`. -/

def evLe (a b : Event × String) : Bool :=
  decide (hlcCompare (a.1.hlc_time, a.1.hlc_counter, toCU a.2)
    (b.1.hlc_time, b.1.hlc_counter, toCU b.2) ≤ 0)

/-- The eviction loop of `removeInactiveDevices` (lines 611-642). -/

def evictLoop (dev : String) (now timeout : Nat) (allSeen : Store) :
    List (Key × Val) → List Key → List (String × Nat) → List Key × List (String × Nat)
  | [], kacc, ki => (kacc, ki)
  | (Key.m d, v) :: rest, kacc, ki =>
    if d = dev then evictLoop dev now timeout allSeen rest kacc ki
    else
      match asSeen (alookup allSeen (Key.s d)) with
      | none => evictLoop dev now timeout allSeen rest kacc ki
      | some sv =>
        if sv.lastActive = 0 then evictLoop dev now timeout allSeen rest kacc ki
        else if now - sv.lastActive > timeout then
          evictLoop dev now timeout allSeen rest
            (kacc ++ [Key.m d, Key.b d, Key.s d] ++ (asMetaV v).shards.map (Key.e d))
            (kiRemove ki d)
        else evictLoop dev now timeout allSeen rest kacc ki
  | _ :: rest, kacc, ki => evictLoop dev now timeout allSeen rest kacc ki

/-- Embedding of `removeInactiveDevices` (SyncEngine.ts lines 600-657). -/

def removeInactive (dev : String) (now timeout : Nat) (st : Engine) (store : Store) :
    Engine × Store :=
  let allMeta := store.filter (fun kv => isMKey kv.1)
  let allSeen := store.filter (fun kv => isSKey kv.1)
  let r := evictLoop dev now timeout allSeen allMeta [] st.knownIncrements
  if r.1 = [] then (st, store)
  else
    let store := removeKeys store r.1
    let store := setMany store [(Key.s dev, Val.seen ⟨r.2, now⟩)]
    ({ st with knownIncrements := r.2 }, store)

/-- `Math.min(...l)` over a non-empty list. -/

def minList : List Nat → Nat
  | [] => 0
  | [x] => x
  | x :: rest => min x (minList rest)

structure GCAcc where
  items : List (Key × Val)
  deletes : List Key
  remaining : List SIdx
  removed : Nat
deriving DecidableEq, Repr

/-- The per-shard loop of `performGC` (lines 700-716), reading the store
as it was before any GC write (all writes happen after the loop).  The
loop appends to `itemsToWrite`/`shardsToDelete`/`remainingShards` and sums
`totalEventsRemoved`; it is rendered as a direct recursion producing the
same lists in the same order. -/

def gcShards (dev : String) (safe : Nat) (store : Store) : List SIdx → GCAcc
  | [] => ⟨[], [], [], 0⟩
  | i :: rest =>
    let evs := asEvents (alookup store (Key.e dev i))
    let rem := evs.filter (fun ev => decide (ev.increment > safe))
    let removed := evs.length - rem.length
    let tail := gcShards dev safe store rest
    if rem.length = 0 then
      ⟨tail.items, Key.e dev i :: tail.deletes, tail.remaining, removed + tail.removed⟩
    else if removed > 0 then
      ⟨(Key.e dev i, Val.events rem) :: tail.items, tail.deletes, i :: tail.remaining,
        removed + tail.removed⟩
    else
      ⟨tail.items, tail.deletes, i :: tail.remaining, removed + tail.removed⟩

/-- The `safe` cut computed by `performGC` over the baselines present in
the store (after any eviction): `min` over all baselines of
`includes[self] ?? 0`, or `last_increment` when no baseline exists. -/

def gcSafeCut (dev : String) (lastIncrement : Nat) (allBaselines : Store) : Nat :=
  if allBaselines.length = 0 then lastIncrement
  else minList (allBaselines.map (fun kv => (alookup (asBaseV kv.2).includes dev).getD 0))

/-- The baseline-scan and shard-pruning part of `performGC`
(SyncEngine.ts lines 670-739), after any eviction. -/

def gcCore (dev : String) (st : Engine) (store : Store) : Engine × Store :=
  let allBaselines := store.filter (fun kv => isBKey kv.1)
  let safe := gcSafeCut dev st.last_increment allBaselines
  if allBaselines.length ≠ 0 ∧ safe = 0 then (st, store)
  else
    let acc := gcShards dev safe store (smGetActive st.sm)
    if acc.removed = 0 then (st, store)
    else
      let sm' := smInit acc.remaining
      let st' := { st with sm := sm', current_shard := sm'.current }
      let items := acc.items ++
        [(Key.m dev, Val.meta ⟨PROTOCOL_VERSION, st'.last_increment, acc.remaining⟩)]
      let store2 := setMany store items
      let store3 := if acc.deletes.length = 0 then store2 else removeKeys store2 acc.deletes
      (st', store3)

/-- Embedding of `performGC` (SyncEngine.ts lines 663-740): optional
inactive-device eviction followed by the GC core. -/

def performGC (cfg : Config) (dev : String) (now : Nat) (st : Engine) (store : Store) :
    Engine × Store :=
  let p :=
    if cfg.removeInactiveDevices then removeInactive dev now cfg.inactiveDeviceTimeout st store
    else (st, store)
  gcCore dev p.1 p.2

/-- Embedding of `sync` (SyncEngine.ts lines 413-496), the body executed
under the lock.  Returns the new engine state, the new store content and
`eventsApplied`.  The store itself never fails (MemoryStorage semantics);
the only error path is version validation. -/

def sync (cfg : Config) (dev : String) (now : Nat) (st : Engine) (store : Store) :
    Except EngErr (Engine × Store × Nat) :=
  let allData := getAllME store
  match processMetas dev allData allData st.knownIncrements [] with
  | .error er => .error er
  | .ok (ki, evs) =>
    let sorted := insertionSortBy evLe evs
    let hlcF := sorted.foldl (fun h p => hlcUpdate h p.1.hlc_time p.1.hlc_counter now) st.hlc
    let applied := sorted.length
    let st := { st with knownIncrements := ki, hlc := hlcF }
    let shouldUpd := now - st.lastActivityUpdate > oneDayMs
    let q :=
      if applied > 0 ∨ shouldUpd then
        let st := if shouldUpd then { st with lastActivityUpdate := now } else st
        (st, setMany store [(Key.s dev, Val.seen ⟨st.knownIncrements, st.lastActivityUpdate⟩)])
      else (st, store)
    let st := { q.1 with syncs_since_gc := q.1.syncs_since_gc + 1 }
    let store := q.2
    let r :=
      if st.syncs_since_gc ≥ cfg.gcFrequency then
        let g := performGC cfg dev now st store
        ({ g.1 with syncs_since_gc := 0 }, g.2)
      else (st, store)
    .ok (r.1, r.2, applied)

/-- Quota-error recognition (SyncEngine.ts line 118):
`err.message.includes('Quota') || err.message.includes('quota')`. -/

def isQuotaMsg (msg : String) : Bool :=
  decide ("Quota".toList <:+: msg.toList) || decide ("quota".toList <:+: msg.toList)

/-- Embedding of `setWithGCRetry` (SyncEngine.ts lines 114-128).  The
adapter's behaviour is injected: `o1` is the outcome of the first
`storage.set` attempt and `o2` of the retry (`none` = success,
`some msg` = the error message thrown).  Returns the surfaced error (if
any) together with the engine state and store content afterwards. -/

def setWithGCRetry (cfg : Config) (dev : String) (now : Nat) (st : Engine) (store : Store)
    (items : List (Key × Val)) (o1 o2 : Option String) : Option EngErr × Engine × Store :=
  match o1 with
  | none => (none, st, setMany store items)
  | some msg =>
    if isQuotaMsg msg then
      let g := performGC cfg dev now st store
      match o2 with
      | none => (none, g.1, setMany g.2 items)
      | some m2 => (some (.storeFail m2), g.1, g.2)
    else (some (.storeFail msg), st, store)

/-- Embedding of `updateBaseline` (SyncEngine.ts lines 579-595); the
applier snapshot blob is opaque and modelled as `0`.  The `includes`
object is `{ [deviceId]: last_increment, ...knownIncrements }`. -/

def updateBaseline (cfg : Config) (dev : String) (st : Engine) (store : Store) :
    Engine × Store :=
  if cfg.hasBaselineHandler then
    let includes :=
      st.knownIncrements.foldl (fun acc p => kiSet acc p.1 p.2) [(dev, st.last_increment)]
    ({ st with events_since_baseline_update := 0 },
      setMany store [(Key.b dev, Val.baseline ⟨includes, 0⟩)])
  else (st, store)

/-- Embedding of the `recordEvent` body (SyncEngine.ts lines 358-408).
`opLen` is the serialized length of the opaque `op` object; `o1`/`o2` are
the outcomes of the batch-write attempts, as in `setWithGCRetry`. -/

def recordEvent (cfg : Config) (dev : String) (now opLen : Nat)
    (o1 o2 : Option String) (st : Engine) (store : Store) :
    Option EngErr × Engine × Store :=
  let h := hlcAdvance st.hlc now
  let st := { st with hlc := h }
  let increment := st.last_increment + 1
  let ev : Event := ⟨increment, h.time, h.counter, opLen⟩
  if smValidateEventSizeFails ev then (some .eventTooLarge, st, store)
  else
    let shardKey := Key.e dev st.sm.current
    let existing := asEvents (alookup store shardKey)
    let p :=
      if existing.length > 0 ∧ smShouldCreateNewShard (existing ++ [ev]) = true then
        let c := smCreateNew st.sm
        ({ st with sm := c.1, current_shard := c.2 }, [(Key.e dev c.2, Val.events [ev])])
      else (st, [(shardKey, Val.events (existing ++ [ev]))])
    let st := { p.1 with
      last_increment := increment
      events_since_baseline_update := p.1.events_since_baseline_update + 1 }
    let items := p.2 ++
      [(Key.m dev, Val.meta ⟨PROTOCOL_VERSION, increment, smGetActive st.sm⟩)]
    let w := setWithGCRetry cfg dev now st store items o1 o2
    match w.1 with
    | some er => (some er, w.2.1, w.2.2)
    | none =>
      if w.2.1.events_since_baseline_update ≥ cfg.baselineThreshold then
        let u := updateBaseline cfg dev w.2.1 w.2.2
        (none, u.1, u.2)
      else (none, w.2.1, w.2.2)

/-- Embedding of `withLock` (SyncEngine.ts lines 133-143): the
`operationInProgress` flag guards the body; the result triple is
(operation result, flag after the call, store after the call). -/

def withLock (busy : Bool) (op : Store → Except EngErr α × Store) (store : Store) :
    Except EngErr α × Bool × Store :=
  if busy then (.error .busy, busy, store)
  else
    let r := op store
    (r.1, false, r.2)

/-! ### Claim C3: shard manager construction from an empty list -/


/-! ### Claim C2: in-memory counters and the batch write -/

/-- A default configuration (`baselineThreshold 15`, `gcFrequency 10`,
`removeInactiveDevices false`, 60-day timeout, no baseline handler). -/

def cfgR : Config := ⟨15, 10, false, 5184000000, false⟩

/-- A freshly initialized first-device engine state: HLC `(100, 0)`,
shard manager on `[0]`, all counters zero. -/

def stR : Engine := ⟨⟨100, 0⟩, smInit [some 0], 0, some 0, 0, 0, [], 0⟩


/-! ### Claim C6: the busy flag -/


/-! ### Claim C9: set-with-GC-retry policy -/


/-! ### Claim C4: event-size validation -/

/-- The event record `recordEvent` builds (SyncEngine.ts lines 362-368). -/

def recordedEvent (st : Engine) (now opLen : Nat) : Event :=
  ⟨st.last_increment + 1, (hlcAdvance st.hlc now).time, (hlcAdvance st.hlc now).counter, opLen⟩


/-! ### Store lemmas -/

/-! ### Claim C8: garbage collection and the safe cut -/

/-- Events currently stored in shard `i` of device `dev`. -/

def gcEvsAt (dev : String) (store : Store) (i : SIdx) : List Event :=
  asEvents (alookup store (Key.e dev i))

/-- The events of shard `i` surviving a GC with cut `safe`. -/

def gcRemAt (dev : String) (safe : Nat) (store : Store) (i : SIdx) : List Event :=
  (gcEvsAt dev store i).filter (fun ev => decide (ev.increment > safe))


/-- Config with `removeInactiveDevices` enabled, other values default. -/

def cfgT : Config := ⟨15, 10, true, 5184000000, false⟩

/-- A store with a stale peer `B` (`s_B.lastActive = 1`), `B`'s meta, and a
baseline `b_C` whose `includes` lacks `A` (so `includes[A] ?? 0 = 0`). -/

def storeT : Store :=
  [(Key.m "B", Val.meta ⟨1, 0, [some 0]⟩),
    (Key.s "B", Val.seen ⟨[], 1⟩),
    (Key.b "C", Val.baseline ⟨[], 0⟩)]


/-- State for the C8 witness: `last_increment = 2`, one shard `0`. -/

def stW8 : Engine := ⟨⟨0, 0⟩, smInit [some 0], 2, some 0, 0, 0, [], 0⟩

/-- Store for the C8 witness: a baseline advertising `includes[A] = 1` and
`A`'s shard 0 holding events 1 and 2. -/

def storeW8 : Store :=
  [(Key.b "B", Val.baseline ⟨[("A", 1)], 0⟩),
    (Key.e "A" (some 0), Val.events [⟨1, 5, 0, 3⟩, ⟨2, 6, 0, 3⟩])]


/-! ### Claim C7: machinery -/


instance [DecidableEq ε] [DecidableEq α] : DecidableEq (Except ε α) := fun x y =>
  match x, y with
  | .error a, .error b =>
    if h : a = b then .isTrue (by rw [h]) else .isFalse (fun he => h (by injection he))
  | .ok a, .ok b =>
    if h : a = b then .isTrue (by rw [h]) else .isFalse (fun he => h (by injection he))
  | .error _, .ok _ => .isFalse (fun he => by cases he)
  | .ok _, .error _ => .isFalse (fun he => by cases he)

instance (s : Store) : Decidable (storeWF s) := by
  unfold storeWF
  infer_instance

/-- Config for the C7 counterexample: `removeInactiveDevices` enabled and
`gcFrequency = 2`, so GC runs during the second sync only. -/

def cfgC : Config := ⟨15, 2, true, 5184000000, false⟩

/-- Fresh engine state for device `A`. -/

def stC : Engine := ⟨⟨0, 0⟩, smInit [some 0], 0, some 0, 0, 0, [], 0⟩

/-- A store holding peer `B`'s meta and a stale seen vector
(`lastActive = 1`). -/

def storeC : Store :=
  [(Key.m "B", Val.meta ⟨1, 0, [some 0]⟩), (Key.s "B", Val.seen ⟨[], 1⟩)]

/-- The engine state and store after the first sync of the counterexample. -/

def stC2 : Engine := ⟨⟨0, 0⟩, smInit [some 0], 0, some 0, 0, 1, [("B", 0)], 10000000000000⟩

def storeC2 : Store :=
  [(Key.m "B", Val.meta ⟨1, 0, [some 0]⟩),
    (Key.s "B", Val.seen ⟨[], 1⟩),
    (Key.s "A", Val.seen ⟨[("B", 0)], 10000000000000⟩)]

/-- The engine state and store after the second sync: GC ran and evicted
`B`, deleting its `knownIncrements` entry. -/

def stC3 : Engine := ⟨⟨0, 0⟩, smInit [some 0], 0, some 0, 0, 0, [], 10000000000000⟩

def storeC3 : Store := [(Key.s "A", Val.seen ⟨[], 10000000000000⟩)]


/-- Inputs for the C7 witness: a peer `B` with one unseen event. -/

def stW : Engine := ⟨⟨0, 0⟩, smInit [some 0], 0, some 0, 0, 0, [], 0⟩

def storeW : Store :=
  [(Key.m "B", Val.meta ⟨1, 1, [some 0]⟩),
    (Key.e "B" (some 0), Val.events [⟨1, 5, 0, 3⟩])]

/-- Engine state and store after the first sync of the witness run. -/

def stW2 : Engine := ⟨⟨5, 1⟩, smInit [some 0], 0, some 0, 0, 1, [("B", 1)], 0⟩

def storeW2 : Store :=
  [(Key.m "B", Val.meta ⟨1, 1, [some 0]⟩),
    (Key.e "B" (some 0), Val.events [⟨1, 5, 0, 3⟩]),
    (Key.s "A", Val.seen ⟨[("B", 1)], 0⟩)]


/-! ## Theorems -/

/-- C1 (counterexample): with prior state `(time, counter) = (10, 5)`,
remote timestamp `(3, 0)` and wall clock `now = 7`, `HLC.update` lands in
its third branch and resets the counter: the result is `(10, 0)`, which is
NOT strictly greater than the prior local state `(10, 5)` under the
lexicographic order.  This refutes the claimed postcondition that the new
`(time, counter)` always strictly exceeds the prior local state. -/
theorem hlcUpdate_not_always_gt_prior :
    hlcUpdate ⟨10, 5⟩ 3 0 7 = ⟨10, 0⟩ ∧
      ¬ pairLt (10, 5) ((hlcUpdate ⟨10, 5⟩ 3 0 7).time, (hlcUpdate ⟨10, 5⟩ 3 0 7).counter) := by
  constructor
  · rfl
  · decide

/-- C1 (amended): after `HLC.update(rt, rc)` the new `(time, counter)` is
always strictly greater than the remote timestamp `(rt, rc)`; it is also
strictly greater than the prior local state whenever the prior time equals
`rt` or is strictly below `max(time, rt, now)` — i.e. in every branch
except the third one taken with a stalled wall clock, where the state
becomes `(time, 0)`. -/
theorem hlcUpdate_gt_remote_and_cond_prior (st : HLCState) (rt rc now : Nat) :
    pairLt (rt, rc) ((hlcUpdate st rt rc now).time, (hlcUpdate st rt rc now).counter) ∧
      ((st.time = rt ∨ st.time < max (max st.time rt) now) →
        pairLt (st.time, st.counter)
          ((hlcUpdate st rt rc now).time, (hlcUpdate st rt rc now).counter)) := by
  unfold hlcUpdate pairLt
  dsimp only
  split_ifs with h1 h2
  · dsimp only
    omega
  · dsimp only
    omega
  · dsimp only
    omega

/-- Witness for the amended C1 theorem at a concrete input: prior state
`(5, 2)`, remote `(5, 7)`, `now = 3` (first branch). -/
theorem hlcUpdate_gt_remote_and_cond_prior_witness :
    pairLt (5, 7) ((hlcUpdate ⟨5, 2⟩ 5 7 3).time, (hlcUpdate ⟨5, 2⟩ 5 7 3).counter) ∧
      pairLt (5, 2) ((hlcUpdate ⟨5, 2⟩ 5 7 3).time, (hlcUpdate ⟨5, 2⟩ 5 7 3).counter) := by
  have h := hlcUpdate_gt_remote_and_cond_prior ⟨5, 2⟩ 5 7 3
  exact ⟨h.1, h.2 (Or.inl rfl)⟩

/-- C10: in every branch of `HLC.update` the new time component equals
`max(prior time, remoteTime, now)`, hence the time component never
decreases. -/
theorem hlcUpdate_time_eq_max (st : HLCState) (rt rc now : Nat) :
    (hlcUpdate st rt rc now).time = max (max st.time rt) now ∧
      st.time ≤ (hlcUpdate st rt rc now).time := by
  unfold hlcUpdate
  dsimp only
  split_ifs with h1 h2
  · dsimp only
    omega
  · dsimp only
    omega
  · dsimp only
    omega

theorem jsStrLt_irrefl : ∀ a, jsStrLt a a = false
  | [] => rfl
  | x :: xs => by
    simp only [jsStrLt, Bool.or_eq_false_iff, Bool.and_eq_false_iff]
    exact ⟨by simp, Or.inr (jsStrLt_irrefl xs)⟩

theorem jsStrLt_asymm : ∀ a b, jsStrLt a b = true → jsStrLt b a = false
  | [], b => by cases b <;> simp [jsStrLt]
  | _ :: _, [] => by simp [jsStrLt]
  | x :: xs, y :: ys => by
    simp only [jsStrLt, Bool.or_eq_true, Bool.and_eq_true, beq_iff_eq, decide_eq_true_eq,
      Bool.or_eq_false_iff, Bool.and_eq_false_iff, decide_eq_false_iff_not, Nat.not_lt,
      beq_eq_false_iff_ne, ne_eq]
    rintro (h | ⟨rfl, h⟩)
    · exact ⟨by omega, Or.inl (by omega)⟩
    · exact ⟨le_refl _, Or.inr (jsStrLt_asymm xs ys h)⟩

theorem jsStrLt_eq_of_not : ∀ a b, jsStrLt a b = false → jsStrLt b a = false → a = b
  | [], [] => fun _ _ => rfl
  | [], _ :: _ => by simp [jsStrLt]
  | _ :: _, [] => by simp [jsStrLt]
  | x :: xs, y :: ys => by
    simp only [jsStrLt, Bool.or_eq_false_iff, Bool.and_eq_false_iff, decide_eq_false_iff_not,
      Nat.not_lt, beq_eq_false_iff_ne, ne_eq, List.cons.injEq]
    rintro ⟨hyx, h1⟩ ⟨hxy, h2⟩
    have hxyeq : x = y := by omega
    subst hxyeq
    rcases h1 with h1 | h1
    · exact absurd rfl h1
    rcases h2 with h2 | h2
    · exact absurd rfl h2
    exact ⟨rfl, jsStrLt_eq_of_not xs ys h1 h2⟩

theorem jsStrLt_trans : ∀ a b c, jsStrLt a b = true → jsStrLt b c = true → jsStrLt a c = true
  | [], b, [] => by cases b <;> simp [jsStrLt]
  | [], [], _ :: _ => by simp [jsStrLt]
  | [], _ :: _, _ :: _ => by simp [jsStrLt]
  | _ :: _, [], _ => by simp [jsStrLt]
  | _ :: _, _ :: _, [] => by simp [jsStrLt]
  | x :: xs, y :: ys, z :: zs => by
    simp only [jsStrLt, Bool.or_eq_true, Bool.and_eq_true, beq_iff_eq, decide_eq_true_eq]
    rintro (h1 | ⟨rfl, h1⟩) (h2 | ⟨rfl, h2⟩)
    · exact Or.inl (by omega)
    · exact Or.inl h1
    · exact Or.inl h2
    · exact Or.inr ⟨rfl, jsStrLt_trans xs ys zs h1 h2⟩

theorem hlcCompare_of_lt {a b : HKey} (h : hkeyLt a b) : hlcCompare a b = -1 := by
  obtain ⟨ta, ca, da⟩ := a
  obtain ⟨tb, cb, db⟩ := b
  unfold hlcCompare
  dsimp only
  rcases h with h | ⟨he, h | ⟨hc, h⟩⟩ <;> dsimp only at *
  · rw [if_pos h]
  · subst he
    rw [if_neg (lt_irrefl _), if_neg (lt_irrefl _), if_pos h]
  · subst he; subst hc
    rw [if_neg (lt_irrefl _), if_neg (lt_irrefl _), if_neg (lt_irrefl _), if_neg (lt_irrefl _),
      if_pos h]

theorem hlcCompare_refl (a : HKey) : hlcCompare a a = 0 := by
  obtain ⟨ta, ca, da⟩ := a
  unfold hlcCompare
  dsimp only
  rw [if_neg (lt_irrefl _), if_neg (lt_irrefl _), if_neg (lt_irrefl _), if_neg (lt_irrefl _),
    if_neg, if_neg] <;> simp [jsStrLt_irrefl]

theorem hlcCompare_of_gt {a b : HKey} (h : hkeyLt b a) : hlcCompare a b = 1 := by
  obtain ⟨ta, ca, da⟩ := a
  obtain ⟨tb, cb, db⟩ := b
  unfold hlcCompare
  dsimp only
  rcases h with h | ⟨he, h | ⟨hc, h⟩⟩ <;> dsimp only at *
  · rw [if_neg (by omega), if_pos h]
  · subst he
    rw [if_neg (lt_irrefl _), if_neg (lt_irrefl _), if_neg (by omega), if_pos h]
  · subst he; subst hc
    rw [if_neg (lt_irrefl _), if_neg (lt_irrefl _), if_neg (lt_irrefl _), if_neg (lt_irrefl _),
      if_neg (by simp [jsStrLt_asymm _ _ h]), if_pos h]

theorem hkeyLt_irrefl (a : HKey) : ¬ hkeyLt a a := by
  unfold hkeyLt
  simp [jsStrLt_irrefl]

theorem hkeyLt_asymm {a b : HKey} (h : hkeyLt a b) : ¬ hkeyLt b a := by
  unfold hkeyLt at *
  rcases h with h | ⟨he, h | ⟨hc, h⟩⟩ <;> rintro (h' | ⟨he', h' | ⟨hc', h'⟩⟩) <;> try omega
  rw [jsStrLt_asymm _ _ h] at h'
  exact Bool.false_ne_true h'

theorem hkeyLt_trichotomy (a b : HKey) : hkeyLt a b ∨ a = b ∨ hkeyLt b a := by
  obtain ⟨ta, ca, da⟩ := a
  obtain ⟨tb, cb, db⟩ := b
  unfold hkeyLt
  dsimp only
  rcases Nat.lt_trichotomy ta tb with h | h | h
  · exact Or.inl (Or.inl h)
  · rcases Nat.lt_trichotomy ca cb with h' | h' | h'
    · exact Or.inl (Or.inr ⟨h, Or.inl h'⟩)
    · by_cases hd : jsStrLt da db = true
      · exact Or.inl (Or.inr ⟨h, Or.inr ⟨h', hd⟩⟩)
      · by_cases hd' : jsStrLt db da = true
        · exact Or.inr (Or.inr (Or.inr ⟨h.symm, Or.inr ⟨h'.symm, hd'⟩⟩))
        · have : da = db :=
            jsStrLt_eq_of_not _ _ (Bool.not_eq_true _ ▸ hd) (Bool.not_eq_true _ ▸ hd')
          subst this; subst h; subst h'
          exact Or.inr (Or.inl rfl)
    · exact Or.inr (Or.inr (Or.inr ⟨h.symm, Or.inl h'⟩))
  · exact Or.inr (Or.inr (Or.inl h))

theorem hkeyLt_trans {a b c : HKey} (h1 : hkeyLt a b) (h2 : hkeyLt b c) : hkeyLt a c := by
  unfold hkeyLt at *
  rcases h1 with h | ⟨he, h | ⟨hc, h⟩⟩ <;> rcases h2 with h' | ⟨he', h' | ⟨hc', h'⟩⟩ <;>
    try (first | exact Or.inl (by omega) | (right; exact ⟨by omega, Or.inl (by omega)⟩))
  right
  exact ⟨by omega, Or.inr ⟨by omega, jsStrLt_trans _ _ _ h h'⟩⟩

theorem hlcCompare_eq_neg_one_iff (a b : HKey) : hlcCompare a b = -1 ↔ hkeyLt a b := by
  constructor
  · intro h
    rcases hkeyLt_trichotomy a b with h' | h' | h'
    · exact h'
    · subst h'; rw [hlcCompare_refl] at h; exact absurd h (by decide)
    · rw [hlcCompare_of_gt h'] at h; exact absurd h (by decide)
  · exact hlcCompare_of_lt

theorem hlcCompare_eq_zero_iff (a b : HKey) : hlcCompare a b = 0 ↔ a = b := by
  constructor
  · intro h
    rcases hkeyLt_trichotomy a b with h' | h' | h'
    · rw [hlcCompare_of_lt h'] at h; exact absurd h (by decide)
    · exact h'
    · rw [hlcCompare_of_gt h'] at h; exact absurd h (by decide)
  · rintro rfl; exact hlcCompare_refl a

theorem hlcCompare_neg (a b : HKey) : hlcCompare b a = - hlcCompare a b := by
  rcases hkeyLt_trichotomy a b with h | h | h
  · rw [hlcCompare_of_lt h, hlcCompare_of_gt h]; rfl
  · subst h; rw [hlcCompare_refl]; decide
  · rw [hlcCompare_of_gt h, hlcCompare_of_lt h]

theorem hlcCompare_range (a b : HKey) :
    hlcCompare a b = -1 ∨ hlcCompare a b = 0 ∨ hlcCompare a b = 1 := by
  rcases hkeyLt_trichotomy a b with h | h | h
  · exact Or.inl (hlcCompare_of_lt h)
  · exact Or.inr (Or.inl ((hlcCompare_eq_zero_iff a b).mpr h))
  · exact Or.inr (Or.inr (hlcCompare_of_gt h))

theorem eventLe_key_antisymm {a b : SortEvent} (h1 : eventLe a b) (h2 : eventLe b a) :
    a.1 = b.1 := by
  unfold eventLe at h1 h2
  rw [hlcCompare_neg] at h2
  exact (hlcCompare_eq_zero_iff a.1 b.1).mp (by omega)

/-- Sorting is deterministic on key-distinct event lists: two sorted
permutations of the same events are identical. -/
theorem sorted_perm_unique :
    ∀ l₁ l₂ : List SortEvent, l₁.Perm l₂ → l₁.Sorted eventLe → l₂.Sorted eventLe →
      (l₁.map Prod.fst).Nodup → l₁ = l₂
  | [], l₂ => fun hp _ _ _ => hp.nil_eq
  | a :: t₁, [] => fun hp _ _ _ => absurd hp.symm.nil_eq (by simp)
  | a :: t₁, b :: t₂ => fun hp hs₁ hs₂ hnd => by
    have hab : a = b := by
      by_contra hne
      have ha2 : a ∈ b :: t₂ := hp.mem_iff.mp (List.mem_cons_self a t₁)
      have hat2 : a ∈ t₂ := by
        rcases List.mem_cons.mp ha2 with h | h
        · exact absurd h hne
        · exact h
      have hb1 : b ∈ a :: t₁ := hp.mem_iff.mpr (List.mem_cons_self b t₂)
      have hbt1 : b ∈ t₁ := by
        rcases List.mem_cons.mp hb1 with h | h
        · exact absurd h.symm hne
        · exact h
      have hle1 : eventLe a b := (List.sorted_cons.mp hs₁).1 b hbt1
      have hle2 : eventLe b a := (List.sorted_cons.mp hs₂).1 a hat2
      have hkey : a.1 = b.1 := eventLe_key_antisymm hle1 hle2
      have : a.1 ∈ t₁.map Prod.fst := hkey ▸ List.mem_map_of_mem Prod.fst hbt1
      exact (List.nodup_cons.mp (by simpa using hnd)).1 this
    subst hab
    have ht : t₁ = t₂ :=
      sorted_perm_unique t₁ t₂ (hp.cons_inv) (List.sorted_cons.mp hs₁).2
        (List.sorted_cons.mp hs₂).2 (List.nodup_cons.mp (by simpa using hnd)).2
    rw [ht]

/-- C5: `HLC.compare` always returns `-1`, `0` or `1`; it is `0` exactly on
equal `(time, counter, deviceId)` triples; it is antisymmetric
(`compare b a = -compare a b`) and transitive, i.e. a strict total order on
triples; consequently, for any collection of events with pairwise distinct
`(hlc_time, hlc_counter, peer_id)` keys, any two sorts by the comparator
produce the identical sequence. -/
theorem hlcCompare_total_order_sort_deterministic (a b c : HKey) :
    (hlcCompare a b = -1 ∨ hlcCompare a b = 0 ∨ hlcCompare a b = 1) ∧
      (hlcCompare a b = 0 ↔ a = b) ∧
      (hlcCompare b a = - hlcCompare a b) ∧
      (hlcCompare a b = -1 → hlcCompare b c = -1 → hlcCompare a c = -1) ∧
      (∀ l₁ l₂ : List SortEvent, l₁.Perm l₂ → l₁.Sorted eventLe → l₂.Sorted eventLe →
        (l₁.map Prod.fst).Nodup → l₁ = l₂) := by
  refine ⟨hlcCompare_range a b, hlcCompare_eq_zero_iff a b, hlcCompare_neg a b, ?_, ?_⟩
  · intro h1 h2
    exact hlcCompare_of_lt
      (hkeyLt_trans ((hlcCompare_eq_neg_one_iff a b).mp h1) ((hlcCompare_eq_neg_one_iff b c).mp h2))
  · exact sorted_perm_unique

/-- Witness for C5 at concrete inputs: transitivity at three concrete keys
and sort determinism on a concrete two-element sorted list. -/
theorem hlcCompare_total_order_sort_deterministic_witness :
    hlcCompare (1, 0, [65]) (1, 1, [66]) = -1 ∧
      ([((1, 0, [65]), 7), ((1, 1, [66]), 9)] : List SortEvent) =
        [((1, 0, [65]), 7), ((1, 1, [66]), 9)] := by
  have h := hlcCompare_total_order_sort_deterministic (1, 0, [65]) (1, 1, [65]) (1, 1, [66])
  exact ⟨h.2.2.2.1 (by decide) (by decide),
    h.2.2.2.2 [((1, 0, [65]), 7), ((1, 1, [66]), 9)] [((1, 0, [65]), 7), ((1, 1, [66]), 9)]
      (List.Perm.refl _) (by decide) (by decide) (by decide)⟩

/-- C3 (code evaluation at the failing input): constructing the shard
manager from the empty shard list — exactly what `performGC` does after
emptying every shard — yields `current = Math.max(...[]) = -Infinity`
(modelled `none`), not the claimed `0`.  With the argument absent the
default `[0]` applies and `current = 0` as claimed. -/
theorem shardManager_empty_list_current_neg_infinity :
    (smInit []).current = none ∧ (smInit []).current ≠ some 0 ∧
      smInitDefault.current = some 0 ∧
      (smInit [some 0, some 2, some 1]).current = some 2 := by
  refine ⟨rfl, by decide, rfl, rfl⟩

/-- C2 (code evaluation at the failing input): `recordEvent` on an empty
store whose batch `set` throws a non-quota error surfaces the error and
leaves the store unwritten, yet the in-memory `last_increment` and
`events_since_baseline_update` have already advanced from 0 to 1 — the
code mutates them before `await setWithGCRetry(...)` commits
(SyncEngine.ts lines 388-391 precede line 400). -/
theorem recordEvent_counters_advance_before_commit :
    (recordEvent cfgR "A" 200 10 (some "disk") none stR []).1 =
        some (.storeFail "disk") ∧
      (recordEvent cfgR "A" 200 10 (some "disk") none stR []).2.2 = [] ∧
      stR.last_increment = 0 ∧
      stR.events_since_baseline_update = 0 ∧
      (recordEvent cfgR "A" 200 10 (some "disk") none stR []).2.1.last_increment = 1 ∧
      (recordEvent cfgR "A" 200 10 (some "disk") none stR []).2.1.events_since_baseline_update
        = 1 := by
  refine ⟨rfl, rfl, rfl, rfl, rfl, rfl⟩

/-- C6: `withLock` serializes `initialize`, `recordEvent` and `sync`.  If
the flag is held, the call fails immediately with `Busy`, the operation
body is never invoked (the equation holds for every `op`), and the store
is untouched; if the flag is free, the body runs and the flag is false
again on every exit path — the result (success or failure) is passed
through unchanged with the flag cleared. -/
theorem withLock_busy_rejects_and_always_releases (α : Type) (op : Store → Except EngErr α × Store)
    (store : Store) :
    withLock true op store = (.error .busy, true, store) ∧
      withLock false op store = ((op store).1, false, (op store).2) := by
  exact ⟨rfl, rfl⟩

/-- C9: `setWithGCRetry` first attempts the `set`; a success writes the
batch and runs no GC.  A non-quota error is propagated unmodified with no
GC and no retry.  A quota error triggers one GC run followed by exactly
one retry: a successful retry writes the batch to the post-GC store, and
a second failure is surfaced to the caller. -/
theorem setWithGCRetry_retry_policy (cfg : Config) (dev : String) (now : Nat)
    (st : Engine) (store : Store) (items : List (Key × Val)) (msg m2 : String)
    (o2 : Option String) :
    setWithGCRetry cfg dev now st store items none o2 = (none, st, setMany store items) ∧
      (isQuotaMsg msg = false →
        setWithGCRetry cfg dev now st store items (some msg) o2 =
          (some (.storeFail msg), st, store)) ∧
      (isQuotaMsg msg = true →
        setWithGCRetry cfg dev now st store items (some msg) none =
          (none, (performGC cfg dev now st store).1,
            setMany (performGC cfg dev now st store).2 items)) ∧
      (isQuotaMsg msg = true →
        setWithGCRetry cfg dev now st store items (some msg) (some m2) =
          (some (.storeFail m2), (performGC cfg dev now st store).1,
            (performGC cfg dev now st store).2)) := by
  refine ⟨rfl, fun h => ?_, fun h => ?_, fun h => ?_⟩ <;>
    simp [setWithGCRetry, h]

/-- Witness for C9 at concrete inputs: a non-quota message is propagated
without GC, and a quota message leads to GC plus one retry whose failure
is surfaced. -/
theorem setWithGCRetry_retry_policy_witness :
    (isQuotaMsg "disk" = false ∧
      setWithGCRetry cfgR "A" 0 stR [] [] (some "disk") none =
        (some (.storeFail "disk"), stR, [])) ∧
      (isQuotaMsg "QuotaExceeded" = true ∧
        setWithGCRetry cfgR "A" 0 stR [] [] (some "QuotaExceeded") (some "QuotaExceeded") =
          (some (.storeFail "QuotaExceeded"), (performGC cfgR "A" 0 stR []).1,
            (performGC cfgR "A" 0 stR []).2)) := by
  refine ⟨⟨by decide, ?_⟩, ⟨by decide, ?_⟩⟩
  · exact (setWithGCRetry_retry_policy cfgR "A" 0 stR [] [] "disk" "x" none).2.1 (by decide)
  · exact (setWithGCRetry_retry_policy cfgR "A" 0 stR [] [] "QuotaExceeded" "QuotaExceeded"
      none).2.2.2 (by decide)

theorem recordEvent_shape (cfg : Config) (dev : String) (now opLen : Nat)
    (o1 o2 : Option String) (st : Engine) (store : Store) :
    (smValidateEventSizeFails (recordedEvent st now opLen) = true ∧
        recordEvent cfg dev now opLen o1 o2 st store =
          (some .eventTooLarge, { st with hlc := hlcAdvance st.hlc now }, store)) ∨
      (smValidateEventSizeFails (recordedEvent st now opLen) = false ∧
        ((recordEvent cfg dev now opLen o1 o2 st store).1 = none ∨
          ∃ m, (recordEvent cfg dev now opLen o1 o2 st store).1 = some (.storeFail m))) := by
  by_cases hv : smValidateEventSizeFails (recordedEvent st now opLen) = true
  · left
    refine ⟨hv, ?_⟩
    unfold recordEvent
    dsimp only
    rw [show (⟨st.last_increment + 1, (hlcAdvance st.hlc now).time,
      (hlcAdvance st.hlc now).counter, opLen⟩ : Event) = recordedEvent st now opLen from rfl]
    rw [if_pos hv]
  · right
    rw [Bool.not_eq_true] at hv
    refine ⟨hv, ?_⟩
    unfold recordEvent
    dsimp only
    rw [show (⟨st.last_increment + 1, (hlcAdvance st.hlc now).time,
      (hlcAdvance st.hlc now).counter, opLen⟩ : Event) = recordedEvent st now opLen from rfl]
    rw [if_neg (by simp [hv])]
    rcases o1 with _ | msg
    · simp only [setWithGCRetry]
      split_ifs <;> simp
    · by_cases hq : isQuotaMsg msg = true
      · rcases o2 with _ | m2
        · simp only [setWithGCRetry, hq, if_true]
          split_ifs <;> simp
        · simp only [setWithGCRetry, hq, if_true]
          exact Or.inr ⟨m2, rfl⟩
      · simp only [setWithGCRetry, Bool.not_eq_true] at hq ⊢
        rw [if_neg (by simp [hq])]
        exact Or.inr ⟨msg, rfl⟩

/-- C4: `recordEvent` fails with `EventTooLarge` if and only if the
estimated serialized size of the single event alone (2 x the JSON text
length of the one-event array) meets or exceeds
`MAX_SHARD_SIZE = 7 * 1024 = 7168` bytes, and on that failure no store
write occurs: the store is returned unchanged. -/
theorem recordEvent_eventTooLarge_iff (cfg : Config) (dev : String) (now opLen : Nat)
    (o1 o2 : Option String) (st : Engine) (store : Store) :
    MAX_SHARD_SIZE = 7168 ∧
      ((recordEvent cfg dev now opLen o1 o2 st store).1 = some .eventTooLarge ↔
        2 * eventsJsonLen [recordedEvent st now opLen] ≥ 7168) ∧
      ((recordEvent cfg dev now opLen o1 o2 st store).1 = some .eventTooLarge →
        (recordEvent cfg dev now opLen o1 o2 st store).2.2 = store) := by
  refine ⟨rfl, ?_, ?_⟩ <;>
    rcases recordEvent_shape cfg dev now opLen o1 o2 st store with ⟨hv, hr⟩ | ⟨hv, hr⟩
  · simp only [smValidateEventSizeFails, estimateSize, MAX_SHARD_SIZE,
      decide_eq_true_eq, ge_iff_le] at hv
    rw [hr]
    simp only [true_iff]
    omega
  · simp only [smValidateEventSizeFails, estimateSize, MAX_SHARD_SIZE,
      decide_eq_false_iff_not, ge_iff_le] at hv
    constructor
    · intro h
      rcases hr with hr | ⟨m, hr⟩ <;> rw [hr] at h <;> simp at h
    · intro h
      exact absurd (by omega) hv
  · rw [hr]
    intro _
    rfl
  · intro h
    rcases hr with hr | ⟨m, hr⟩ <;> rw [hr] at h <;> simp at h

/-- Witness for C4. -/
theorem recordEvent_eventTooLarge_iff_witness :
    ((recordEvent cfgR "A" 200 4000 none none stR []).1 = some .eventTooLarge ↔
        2 * eventsJsonLen [recordedEvent stR 200 4000] ≥ 7168) ∧
      ((recordEvent cfgR "A" 200 4000 none none stR []).1 = some .eventTooLarge →
        (recordEvent cfgR "A" 200 4000 none none stR []).2.2 = []) ∧
      (recordEvent cfgR "A" 200 4000 none none stR []).2.2 = [] :=
  have h := recordEvent_eventTooLarge_iff cfgR "A" 200 4000 none none stR []
  ⟨h.2.1, h.2.2, h.2.2 (by decide)⟩

theorem alookup_setOne_self (s : Store) (k : Key) (v : Val) :
    alookup (setOne s k v) k = some v := by
  induction s with
  | nil => simp [setOne, alookup]
  | cons hd tl ih =>
    obtain ⟨k', v'⟩ := hd
    by_cases h : k = k'
    · subst h
      simp [setOne, alookup]
    · simp only [setOne, if_neg h, alookup]
      exact ih

theorem alookup_setOne_other (s : Store) (k k' : Key) (v : Val) (h : k' ≠ k) :
    alookup (setOne s k v) k' = alookup s k' := by
  induction s with
  | nil => simp [setOne, alookup, h]
  | cons hd tl ih =>
    obtain ⟨k₁, v₁⟩ := hd
    by_cases h1 : k = k₁
    · subst h1
      simp only [setOne, if_pos rfl, alookup]
      rw [if_neg h, if_neg h]
    · simp only [setOne, if_neg h1, alookup]
      by_cases h2 : k' = k₁
      · rw [if_pos h2, if_pos h2]
      · rw [if_neg h2, if_neg h2]
        exact ih

theorem alookup_setMany_not_mem (items : List (Key × Val)) (k : Key)
    (h : ∀ v, (k, v) ∉ items) : ∀ s : Store, alookup (setMany s items) k = alookup s k := by
  induction items with
  | nil => intro s; rfl
  | cons hd tl ih =>
    intro s
    obtain ⟨k₁, v₁⟩ := hd
    have hk : k ≠ k₁ := by
      intro he
      exact h v₁ (by simp [he])
    simp only [setMany]
    rw [ih (fun v hv => h v (List.mem_cons_of_mem _ hv)), alookup_setOne_other _ _ _ _ hk]

theorem alookup_setMany_mem_const (items : List (Key × Val)) (k : Key) (v : Val)
    (hmem : (k, v) ∈ items) (hconst : ∀ v', (k, v') ∈ items → v' = v) :
    ∀ s : Store, alookup (setMany s items) k = some v := by
  induction items with
  | nil => cases hmem
  | cons hd tl ih =>
    intro s
    obtain ⟨k₁, v₁⟩ := hd
    simp only [setMany]
    by_cases h1 : k = k₁
    · subst h1
      have hv₁ : v₁ = v := hconst v₁ (by simp)
      subst hv₁
      by_cases h2 : ∀ v', (k, v') ∉ tl
      · rw [alookup_setMany_not_mem tl k h2, alookup_setOne_self]
      · push_neg at h2
        obtain ⟨v₂, hv₂⟩ := h2
        have : v₂ = v₁ := hconst v₂ (List.mem_cons_of_mem _ hv₂)
        subst this
        exact ih hv₂ (fun v' hv' => hconst v' (List.mem_cons_of_mem _ hv')) _
    · have : (k, v) ∈ tl := by
        rcases List.mem_cons.mp hmem with he | ht
        · exact absurd (by simpa using congrArg Prod.fst he) h1
        · exact ht
      exact ih this (fun v' hv' => hconst v' (List.mem_cons_of_mem _ hv')) _

theorem alookup_removeKeys (s : Store) (ks : List Key) (k : Key) :
    alookup (removeKeys s ks) k = if k ∈ ks then none else alookup s k := by
  induction s with
  | nil =>
    simp only [removeKeys, List.filter_nil, alookup]
    split <;> rfl
  | cons hd tl ih =>
    obtain ⟨k₁, v₁⟩ := hd
    simp only [removeKeys] at ih ⊢
    rw [List.filter_cons]
    by_cases h1 : k₁ ∈ ks
    · rw [if_neg (by simp [h1]), ih]
      by_cases h2 : k ∈ ks
      · rw [if_pos h2, if_pos h2]
      · rw [if_neg h2, if_neg h2]
        have hne : k ≠ k₁ := fun he => h2 (he ▸ h1)
        simp [alookup, hne]
    · rw [if_pos (by simp [h1])]
      simp only [alookup]
      by_cases h2 : k = k₁
      · subst h2
        rw [if_pos rfl, if_neg h1]
        simp [alookup]
      · rw [if_neg h2, ih]
        by_cases h3 : k ∈ ks
        · rw [if_pos h3, if_pos h3]
        · rw [if_neg h3, if_neg h3]
          simp [alookup, h2]

theorem storeWF_setOne (s : Store) (k : Key) (v : Val) (h : storeWF s) :
    storeWF (setOne s k v) := by
  induction s with
  | nil => simp [setOne, storeWF]
  | cons hd tl ih =>
    obtain ⟨k₁, v₁⟩ := hd
    simp only [storeWF, List.map_cons, List.nodup_cons] at h
    by_cases h1 : k = k₁
    · subst h1
      simpa [setOne, storeWF] using h
    · simp only [setOne, if_neg h1, storeWF, List.map_cons, List.nodup_cons]
      refine ⟨?_, ih h.2⟩
      intro hmem
      have : (setOne tl k v).map Prod.fst = tl.map Prod.fst ∨
          (setOne tl k v).map Prod.fst = tl.map Prod.fst ++ [k] := by
        clear hmem ih h
        induction tl with
        | nil => simp [setOne]
        | cons hd₂ tl₂ ih₂ =>
          obtain ⟨k₂, v₂⟩ := hd₂
          by_cases h2 : k = k₂
          · subst h2
            simp [setOne]
          · simp only [setOne, if_neg h2, List.map_cons]
            rcases ih₂ with he | he <;> simp [he]
      rcases this with he | he
      · rw [he] at hmem
        exact h.1 hmem
      · rw [he] at hmem
        rcases List.mem_append.mp hmem with hm | hm
        · exact h.1 hm
        · simp at hm
          exact h1 hm.symm

theorem storeWF_setMany (items : List (Key × Val)) :
    ∀ s : Store, storeWF s → storeWF (setMany s items) := by
  induction items with
  | nil => intro s h; exact h
  | cons hd tl ih =>
    intro s h
    obtain ⟨k₁, v₁⟩ := hd
    exact ih _ (storeWF_setOne s k₁ v₁ h)

theorem storeWF_removeKeys (s : Store) (ks : List Key) (h : storeWF s) :
    storeWF (removeKeys s ks) := by
  unfold storeWF at h ⊢
  have hsub : List.Sublist ((removeKeys s ks).map Prod.fst) (s.map Prod.fst) :=
    List.Sublist.map Prod.fst (List.filter_sublist s)
  exact List.Nodup.sublist hsub h

theorem gcShards_items_mem (dev : String) (safe : Nat) (store : Store) :
    ∀ (shards : List SIdx) (k : Key) (v : Val),
      (k, v) ∈ (gcShards dev safe store shards).items →
        ∃ i, i ∈ shards ∧ k = Key.e dev i ∧ v = Val.events (gcRemAt dev safe store i) ∧
          (gcRemAt dev safe store i).length ≠ 0 ∧
          (gcEvsAt dev store i).length - (gcRemAt dev safe store i).length > 0 := by
  intro shards
  induction shards with
  | nil => intro k v h; simp [gcShards] at h
  | cons i rest ih =>
    intro k v h
    rw [gcShards] at h
    split_ifs at h with h1 h2
    · obtain ⟨j, hj⟩ := ih k v h
      exact ⟨j, List.mem_cons_of_mem _ hj.1, hj.2⟩
    · rcases List.mem_cons.mp h with he | ht
      · refine ⟨i, List.mem_cons_self i rest, ?_⟩
        have hk := congrArg Prod.fst he
        have hv := congrArg Prod.snd he
        dsimp at hk hv
        exact ⟨hk, hv, h1, h2⟩
      · obtain ⟨j, hj⟩ := ih k v ht
        exact ⟨j, List.mem_cons_of_mem _ hj.1, hj.2⟩
    · obtain ⟨j, hj⟩ := ih k v h
      exact ⟨j, List.mem_cons_of_mem _ hj.1, hj.2⟩

theorem gcShards_deletes_mem (dev : String) (safe : Nat) (store : Store) :
    ∀ (shards : List SIdx) (k : Key),
      k ∈ (gcShards dev safe store shards).deletes →
        ∃ i, i ∈ shards ∧ k = Key.e dev i ∧ (gcRemAt dev safe store i).length = 0 := by
  intro shards
  induction shards with
  | nil => intro k h; simp [gcShards] at h
  | cons i rest ih =>
    intro k h
    rw [gcShards] at h
    split_ifs at h with h1 h2
    · rcases List.mem_cons.mp h with he | ht
      · exact ⟨i, List.mem_cons_self i rest, he, h1⟩
      · obtain ⟨j, hj⟩ := ih k ht
        exact ⟨j, List.mem_cons_of_mem _ hj.1, hj.2⟩
    · obtain ⟨j, hj⟩ := ih k h
      exact ⟨j, List.mem_cons_of_mem _ hj.1, hj.2⟩
    · obtain ⟨j, hj⟩ := ih k h
      exact ⟨j, List.mem_cons_of_mem _ hj.1, hj.2⟩

theorem gcShards_items_mem_of (dev : String) (safe : Nat) (store : Store) :
    ∀ (shards : List SIdx) (i : SIdx), i ∈ shards →
      (gcRemAt dev safe store i).length ≠ 0 →
      (gcEvsAt dev store i).length - (gcRemAt dev safe store i).length > 0 →
      (Key.e dev i, Val.events (gcRemAt dev safe store i)) ∈
        (gcShards dev safe store shards).items := by
  intro shards
  induction shards with
  | nil => intro i h; cases h
  | cons j rest ih =>
    intro i hi hne hrm
    rw [gcShards]
    rcases List.mem_cons.mp hi with he | ht
    · subst he
      rw [if_neg (by exact hne), if_pos (by exact hrm)]
      exact List.mem_cons_self _ _
    · split_ifs with h1 h2
      · exact ih i ht hne hrm
      · exact List.mem_cons_of_mem _ (ih i ht hne hrm)
      · exact ih i ht hne hrm

theorem gcShards_deletes_mem_of (dev : String) (safe : Nat) (store : Store) :
    ∀ (shards : List SIdx) (i : SIdx), i ∈ shards →
      (gcRemAt dev safe store i).length = 0 →
      Key.e dev i ∈ (gcShards dev safe store shards).deletes := by
  intro shards
  induction shards with
  | nil => intro i h; cases h
  | cons j rest ih =>
    intro i hi hz
    rw [gcShards]
    rcases List.mem_cons.mp hi with he | ht
    · subst he
      rw [if_pos (by exact hz)]
      exact List.mem_cons_self _ _
    · split_ifs with h1 h2
      · exact List.mem_cons_of_mem _ (ih i ht hz)
      · exact ih i ht hz
      · exact ih i ht hz

theorem performGC_noflag (cfg : Config) (dev : String) (now : Nat) (st : Engine) (store : Store)
    (hflag : cfg.removeInactiveDevices = false) :
    performGC cfg dev now st store = gcCore dev st store := by
  unfold performGC
  rw [hflag]
  simp

theorem key_e_inj {d d' : String} {i i' : SIdx} (h : Key.e d i = Key.e d' i') :
    d = d' ∧ i = i' := by
  cases h
  exact ⟨rfl, rfl⟩

/-- After the GC core, the value of any key in the store is: removed if it
was scheduled for deletion, else the last write from `itemsToWrite` (shard
rewrites and the new meta), else unchanged. -/
theorem gcCore_cases (dev : String) (st : Engine) (store : Store) :
    gcCore dev st store = (st, store) ∨
      ((let safe := gcSafeCut dev st.last_increment (store.filter (fun kv => isBKey kv.1))
        let acc := gcShards dev safe store (smGetActive st.sm)
        gcCore dev st store =
          ({ st with sm := smInit acc.remaining, current_shard := (smInit acc.remaining).current },
            (fun store3 => if acc.deletes.length = 0 then store3 else removeKeys store3 acc.deletes)
              (setMany store (acc.items ++
                [(Key.m dev, Val.meta ⟨PROTOCOL_VERSION, st.last_increment, acc.remaining⟩)])))) ∧
        ¬ ((store.filter (fun kv => isBKey kv.1)).length ≠ 0 ∧
            gcSafeCut dev st.last_increment (store.filter (fun kv => isBKey kv.1)) = 0)) := by
  unfold gcCore
  by_cases h1 : (store.filter (fun kv => isBKey kv.1)).length ≠ 0 ∧
      gcSafeCut dev st.last_increment (store.filter (fun kv => isBKey kv.1)) = 0
  · left
    simp only [if_pos h1]
  · rw [if_neg h1]
    by_cases h2 : (gcShards dev
        (gcSafeCut dev st.last_increment (store.filter (fun kv => isBKey kv.1))) store
        (smGetActive st.sm)).removed = 0
    · left
      rw [if_pos h2]
    · right
      refine ⟨?_, h1⟩
      simp only [if_neg h2]

theorem alookup_guarded_remove (s : Store) (ds : List Key) (k : Key) :
    alookup (if ds.length = 0 then s else removeKeys s ds) k =
      if k ∈ ds then none else alookup s k := by
  by_cases h : ds.length = 0
  · rw [if_pos h]
    have : ds = [] := List.eq_nil_of_length_eq_zero h
    subst this
    simp
  · rw [if_neg h, alookup_removeKeys]

/-- C8 (amended): with `removeInactiveDevices` disabled, for every GC run
with at least one baseline present, letting `safe` be the minimum over all
baselines of `includes[self] ?? 0`: when `safe = 0` the run returns with
engine state and store unchanged; only own events with
`increment ≤ safe` are ever removed from a shard (a deleted shard key held
only such events); other peers' shard keys are untouched; and both the
in-memory `last_increment` and the `last_increment` of any rewritten meta
equal the prior value. -/
theorem performGC_gc_respects_safe_cut (cfg : Config) (dev : String) (now : Nat)
    (st : Engine) (store : Store)
    (hflag : cfg.removeInactiveDevices = false)
    (hB : (store.filter (fun kv => isBKey kv.1)).length ≠ 0) :
    (gcSafeCut dev st.last_increment (store.filter (fun kv => isBKey kv.1)) = 0 →
      performGC cfg dev now st store = (st, store)) ∧
    (∀ i evs, alookup store (Key.e dev i) = some (Val.events evs) →
      (∀ evs', alookup (performGC cfg dev now st store).2 (Key.e dev i) =
          some (Val.events evs') → ∀ ev ∈ evs, ev ∉ evs' →
        ev.increment ≤ gcSafeCut dev st.last_increment
          (store.filter (fun kv => isBKey kv.1))) ∧
      (alookup (performGC cfg dev now st store).2 (Key.e dev i) = none →
        ∀ ev ∈ evs, ev.increment ≤ gcSafeCut dev st.last_increment
          (store.filter (fun kv => isBKey kv.1)))) ∧
    (∀ d i, d ≠ dev →
      alookup (performGC cfg dev now st store).2 (Key.e d i) = alookup store (Key.e d i)) ∧
    (performGC cfg dev now st store).1.last_increment = st.last_increment ∧
    (∀ mv, alookup (performGC cfg dev now st store).2 (Key.m dev) = some (Val.meta mv) →
      mv.last_increment = st.last_increment ∨
        alookup store (Key.m dev) = some (Val.meta mv)) := by
  rw [performGC_noflag cfg dev now st store hflag]
  rcases gcCore_cases dev st store with hr | ⟨hr, hcond⟩
  · rw [hr]
    refine ⟨fun _ => rfl, ?_, fun d i _ => rfl, rfl, fun mv hmv => Or.inr hmv⟩
    intro i evs halook
    constructor
    · intro evs' halook' ev hmem hnmem
      rw [halook] at halook'
      exfalso
      apply hnmem
      have hx : evs = evs' := by
        injection halook' with h1
        injection h1
      exact hx ▸ hmem
    · intro hnone
      rw [halook] at hnone
      cases hnone
  · dsimp only at hr
    set safe := gcSafeCut dev st.last_increment (store.filter (fun kv => isBKey kv.1))
      with hsafe
    set acc := gcShards dev safe store (smGetActive st.sm) with hacc
    set items2 := acc.items ++
      [(Key.m dev, Val.meta ⟨PROTOCOL_VERSION, st.last_increment, acc.remaining⟩)] with hitems
    have hstore : ∀ k, alookup (gcCore dev st store).2 k =
        if k ∈ acc.deletes then none else alookup (setMany store items2) k := by
      intro k
      rw [hr]
      exact alookup_guarded_remove _ _ k
    have hsafe0 : ¬ safe = 0 := fun h0 => hcond ⟨hB, h0⟩
    have hitems_econst : ∀ i v', (Key.e dev i, v') ∈ items2 →
        v' = Val.events (gcRemAt dev safe store i) := by
      intro i v' hv'
      rcases List.mem_append.mp hv' with hv' | hv'
      · obtain ⟨j, _, hk, hval, _, _⟩ := gcShards_items_mem dev safe store _ _ _ hv'
        obtain ⟨_, hij⟩ := key_e_inj hk
        rw [hval, hij]
      · simp at hv'
    have hdel_shape : ∀ i, Key.e dev i ∈ acc.deletes →
        (gcRemAt dev safe store i).length = 0 := by
      intro i hd
      obtain ⟨j, _, hk, hz⟩ := gcShards_deletes_mem dev safe store _ _ hd
      obtain ⟨_, hij⟩ := key_e_inj hk
      rw [hij]
      exact hz
    refine ⟨fun h0 => absurd h0 hsafe0, ?_, ?_, by rw [hr], ?_⟩
    · -- events of self shards
      intro i evs halook
      have hevs : gcEvsAt dev store i = evs := by
        rw [gcEvsAt, halook]
        rfl
      have hremfil : gcRemAt dev safe store i =
          evs.filter (fun ev => decide (ev.increment > safe)) := by
        rw [gcRemAt, hevs]
      have hfilmem : ∀ ev ∈ evs, ev ∉ gcRemAt dev safe store i → ev.increment ≤ safe := by
        intro ev hmem hnmem
        by_contra hgt
        exact hnmem (hremfil ▸ List.mem_filter.mpr ⟨hmem, by simpa using by omega⟩)
      by_cases hin : i ∈ smGetActive st.sm
      · by_cases h0 : (gcRemAt dev safe store i).length = 0
        · have hdel : Key.e dev i ∈ acc.deletes :=
            gcShards_deletes_mem_of dev safe store _ i hin h0
          have hlook2 : alookup (gcCore dev st store).2 (Key.e dev i) = none := by
            rw [hstore, if_pos hdel]
          have hallsmall : ∀ ev ∈ evs, ev.increment ≤ safe := by
            intro ev hmem
            refine hfilmem ev hmem ?_
            intro hmemrem
            rw [List.length_eq_zero] at h0
            rw [h0] at hmemrem
            cases hmemrem
          constructor
          · intro evs' halook' ev hmem _
            exact hallsmall ev hmem
          · intro _ ev hmem
            exact hallsmall ev hmem
        · by_cases hrm : (gcEvsAt dev store i).length - (gcRemAt dev safe store i).length > 0
          · have hmem2 : (Key.e dev i, Val.events (gcRemAt dev safe store i)) ∈ items2 :=
              List.mem_append_left _ (gcShards_items_mem_of dev safe store _ i hin h0 hrm)
            have hset : alookup (setMany store items2) (Key.e dev i) =
                some (Val.events (gcRemAt dev safe store i)) :=
              alookup_setMany_mem_const _ _ _ hmem2 (hitems_econst i) store
            have hnd : Key.e dev i ∉ acc.deletes := fun hd => h0 (hdel_shape i hd)
            have hlook2 : alookup (gcCore dev st store).2 (Key.e dev i) =
                some (Val.events (gcRemAt dev safe store i)) := by
              rw [hstore, if_neg hnd, hset]
            constructor
            · intro evs' halook' ev hmem hnmem
              rw [hlook2] at halook'
              have hx : gcRemAt dev safe store i = evs' := by
                injection halook' with h1
                injection h1
              exact hfilmem ev hmem (hx ▸ hnmem)
            · intro hnone
              rw [hlook2] at hnone
              cases hnone
          · have hnoti : ∀ v', (Key.e dev i, v') ∉ items2 := by
              intro v' hv'
              rcases List.mem_append.mp hv' with hv' | hv'
              · obtain ⟨j, _, hk, _, _, hj⟩ := gcShards_items_mem dev safe store _ _ _ hv'
                obtain ⟨_, hij⟩ := key_e_inj hk
                rw [← hij] at hj
                exact hrm hj
              · simp at hv'
            have hnd : Key.e dev i ∉ acc.deletes := fun hd => h0 (hdel_shape i hd)
            have hlook2 : alookup (gcCore dev st store).2 (Key.e dev i) =
                alookup store (Key.e dev i) := by
              rw [hstore, if_neg hnd, alookup_setMany_not_mem _ _ hnoti]
            constructor
            · intro evs' halook' ev hmem hnmem
              rw [hlook2, halook] at halook'
              exfalso
              apply hnmem
              have hx : evs = evs' := by
                injection halook' with h1
                injection h1
              exact hx ▸ hmem
            · intro hnone
              rw [hlook2, halook] at hnone
              cases hnone
      · have hnoti : ∀ v', (Key.e dev i, v') ∉ items2 := by
          intro v' hv'
          rcases List.mem_append.mp hv' with hv' | hv'
          · obtain ⟨j, hjmem, hk, _, _, _⟩ := gcShards_items_mem dev safe store _ _ _ hv'
            obtain ⟨_, hij⟩ := key_e_inj hk
            rw [hij] at hin
            exact hin hjmem
          · simp at hv'
        have hnd : Key.e dev i ∉ acc.deletes := by
          intro hd
          obtain ⟨j, hjmem, hk, _⟩ := gcShards_deletes_mem dev safe store _ _ hd
          obtain ⟨_, hij⟩ := key_e_inj hk
          rw [hij] at hin
          exact hin hjmem
        have hlook2 : alookup (gcCore dev st store).2 (Key.e dev i) =
            alookup store (Key.e dev i) := by
          rw [hstore, if_neg hnd, alookup_setMany_not_mem _ _ hnoti]
        constructor
        · intro evs' halook' ev hmem hnmem
          rw [hlook2, halook] at halook'
          exfalso
          apply hnmem
          have hx : evs = evs' := by
            injection halook' with h1
            injection h1
          exact hx ▸ hmem
        · intro hnone
          rw [hlook2, halook] at hnone
          cases hnone
    · -- other devices' shards untouched
      intro d i hd
      have hnoti : ∀ v', (Key.e d i, v') ∉ items2 := by
        intro v' hv'
        rcases List.mem_append.mp hv' with hv' | hv'
        · obtain ⟨j, _, hk, _, _, _⟩ := gcShards_items_mem dev safe store _ _ _ hv'
          obtain ⟨hdd, _⟩ := key_e_inj hk
          exact hd hdd
        · simp at hv'
      have hnd : Key.e d i ∉ acc.deletes := by
        intro hdl
        obtain ⟨j, _, hk, _⟩ := gcShards_deletes_mem dev safe store _ _ hdl
        obtain ⟨hdd, _⟩ := key_e_inj hk
        exact hd hdd
      rw [hstore, if_neg hnd, alookup_setMany_not_mem _ _ hnoti]
    · -- the rewritten meta keeps last_increment
      intro mv hmv
      have hmmem : (Key.m dev, Val.meta ⟨PROTOCOL_VERSION, st.last_increment, acc.remaining⟩)
          ∈ items2 := List.mem_append_right _ (by simp)
      have hmconst : ∀ v', (Key.m dev, v') ∈ items2 →
          v' = Val.meta ⟨PROTOCOL_VERSION, st.last_increment, acc.remaining⟩ := by
        intro v' hv'
        rcases List.mem_append.mp hv' with hv' | hv'
        · obtain ⟨j, _, hk, _, _, _⟩ := gcShards_items_mem dev safe store _ _ _ hv'
          cases hk
        · simpa using hv'
      have hnd : Key.m dev ∉ acc.deletes := by
        intro hdl
        obtain ⟨j, _, hk, _⟩ := gcShards_deletes_mem dev safe store _ _ hdl
        cases hk
      rw [hstore, if_neg hnd,
        alookup_setMany_mem_const _ _ _ hmmem hmconst store] at hmv
      left
      have hx : mv = ⟨PROTOCOL_VERSION, st.last_increment, acc.remaining⟩ := by
        injection hmv with h1
        injection h1 with h2
        exact h2.symm
      rw [hx]

/-- C8 (counterexample): a GC run on device `A` with `removeInactiveDevices`
enabled, at least one baseline present, and `safe = 0` (the minimum over
baselines of `includes[A] ?? 0` is 0) nevertheless CHANGES the store: the
eviction step (performGC lines 666-668) deletes the inactive peer `B` and
rewrites `s_A` before the `safe == 0` early return is reached.  This
refutes the claim that such a run returns without any store change. -/
theorem performGC_changes_store_despite_safe_zero :
    (storeT.filter (fun kv => isBKey kv.1)).length ≠ 0 ∧
      gcSafeCut "A" stR.last_increment (storeT.filter (fun kv => isBKey kv.1)) = 0 ∧
      (performGC cfgT "A" 10000000000000 stR storeT).2 ≠ storeT := by
  refine ⟨by decide, by decide, by decide⟩

/-- Witness for the amended C8 theorem at a concrete input: with the
default configuration, one baseline with `includes[A] = 1` and two stored
events, GC keeps event 2, and the event it removed (increment 1) is
bounded by the safe cut 1; `last_increment` is unchanged. -/
theorem performGC_gc_respects_safe_cut_witness :
    cfgR.removeInactiveDevices = false ∧
      (storeW8.filter (fun kv => isBKey kv.1)).length ≠ 0 ∧
      (⟨1, 5, 0, 3⟩ : Event).increment ≤
        gcSafeCut "A" stW8.last_increment (storeW8.filter (fun kv => isBKey kv.1)) ∧
      (performGC cfgR "A" 0 stW8 storeW8).1.last_increment = stW8.last_increment := by
  have h := performGC_gc_respects_safe_cut cfgR "A" 0 stW8 storeW8 (by decide) (by decide)
  refine ⟨by decide, by decide, ?_, h.2.2.2.1⟩
  exact (h.2.1 (some 0) [⟨1, 5, 0, 3⟩, ⟨2, 6, 0, 3⟩] (by decide)).1
    [⟨2, 6, 0, 3⟩] (by decide) ⟨1, 5, 0, 3⟩ (by decide) (by decide)

theorem kiSet_self (ki : List (String × Nat)) (d : String) (v : Nat) :
    alookup (kiSet ki d v) d = some v := by
  induction ki with
  | nil => simp [kiSet, alookup]
  | cons hd tl ih =>
    obtain ⟨d', v'⟩ := hd
    by_cases h : d = d'
    · subst h
      simp [kiSet, alookup]
    · simp only [kiSet, if_neg h, alookup]
      exact ih

theorem kiSet_other (ki : List (String × Nat)) (d d' : String) (v : Nat) (h : d' ≠ d) :
    alookup (kiSet ki d v) d' = alookup ki d' := by
  induction ki with
  | nil => simp [kiSet, alookup, h]
  | cons hd tl ih =>
    obtain ⟨d₁, v₁⟩ := hd
    by_cases h1 : d = d₁
    · subst h1
      simp only [kiSet, if_pos rfl, alookup]
      rw [if_neg h, if_neg h]
    · simp only [kiSet, if_neg h1, alookup]
      by_cases h2 : d' = d₁
      · rw [if_pos h2, if_pos h2]
      · rw [if_neg h2, if_neg h2]
        exact ih

theorem alookup_mem [DecidableEq κ] (l : List (κ × β)) (k : κ) (v : β)
    (h : alookup l k = some v) : (k, v) ∈ l := by
  induction l with
  | nil => cases h
  | cons hd tl ih =>
    obtain ⟨k₁, v₁⟩ := hd
    simp only [alookup] at h
    by_cases h1 : k = k₁
    · rw [if_pos h1] at h
      injection h with h2
      subst h1
      subst h2
      exact List.mem_cons_self _ _
    · rw [if_neg h1] at h
      exact List.mem_cons_of_mem _ (ih h)

theorem mem_alookup_of_nodup [DecidableEq κ] (l : List (κ × β)) (k : κ) (v : β)
    (hnd : (l.map Prod.fst).Nodup) (h : (k, v) ∈ l) : alookup l k = some v := by
  induction l with
  | nil => cases h
  | cons hd tl ih =>
    obtain ⟨k₁, v₁⟩ := hd
    simp only [List.map_cons, List.nodup_cons] at hnd
    rcases List.mem_cons.mp h with he | ht
    · have h1 : k = k₁ := congrArg Prod.fst he
      have h2 : v = v₁ := congrArg Prod.snd he
      simp only [alookup, if_pos h1]
      rw [h2]
    · have hne : k ≠ k₁ := by
        intro he
        subst he
        exact hnd.1 (List.mem_map_of_mem Prod.fst ht)
      simp only [alookup, if_neg hne]
      exact ih hnd.2 ht

theorem alookup_filter_of_pred (p : Key × Val → Bool) (l : Store) (k : Key)
    (hp : ∀ v, p (k, v) = true) : alookup (l.filter p) k = alookup l k := by
  induction l with
  | nil => rfl
  | cons hd tl ih =>
    obtain ⟨k₁, v₁⟩ := hd
    rw [List.filter_cons]
    by_cases h1 : k = k₁
    · subst h1
      rw [if_pos (hp v₁)]
      simp [alookup]
    · by_cases h2 : p (k₁, v₁) = true
      · rw [if_pos h2]
        simp only [alookup, if_neg h1]
        exact ih
      · rw [if_neg h2]
        rw [ih]
        simp only [alookup, if_neg h1]

theorem storeWF_filter (p : Key × Val → Bool) (l : Store) (h : storeWF l) :
    storeWF (l.filter p) := by
  unfold storeWF at h ⊢
  exact List.Nodup.sublist (List.Sublist.map Prod.fst (List.filter_sublist l)) h

theorem performGC_noflag_preserves (cfg : Config) (dev : String) (now : Nat) (st : Engine)
    (store : Store) (hflag : cfg.removeInactiveDevices = false) :
    (performGC cfg dev now st store).1.knownIncrements = st.knownIncrements ∧
      (performGC cfg dev now st store).1.lastActivityUpdate = st.lastActivityUpdate ∧
      (performGC cfg dev now st store).1.last_increment = st.last_increment ∧
      (performGC cfg dev now st store).1.hlc = st.hlc := by
  rw [performGC_noflag cfg dev now st store hflag]
  rcases gcCore_cases dev st store with hr | ⟨hr, _⟩ <;>
    rw [hr] <;> exact ⟨rfl, rfl, rfl, rfl⟩

theorem performGC_noflag_frame_m (cfg : Config) (dev : String) (now : Nat) (st : Engine)
    (store : Store) (hflag : cfg.removeInactiveDevices = false) (d : String) (hd : d ≠ dev) :
    alookup (performGC cfg dev now st store).2 (Key.m d) = alookup store (Key.m d) := by
  rw [performGC_noflag cfg dev now st store hflag]
  rcases gcCore_cases dev st store with hr | ⟨hr, _⟩
  · rw [hr]
  · dsimp only at hr
    rw [hr]
    set safe := gcSafeCut dev st.last_increment (store.filter (fun kv => isBKey kv.1))
    set acc := gcShards dev safe store (smGetActive st.sm)
    have hnd : Key.m d ∉ acc.deletes := by
      intro hdl
      obtain ⟨j, _, hk, _⟩ := gcShards_deletes_mem dev safe store _ _ hdl
      cases hk
    have hnoti : ∀ v', (Key.m d, v') ∉ acc.items ++
        [(Key.m dev, Val.meta ⟨PROTOCOL_VERSION, st.last_increment, acc.remaining⟩)] := by
      intro v' hv'
      rcases List.mem_append.mp hv' with hv' | hv'
      · obtain ⟨j, _, hk, _, _, _⟩ := gcShards_items_mem dev safe store _ _ _ hv'
        cases hk
      · simp only [List.mem_singleton, Prod.mk.injEq] at hv'
        exact hd (by injection hv'.1)
    rw [alookup_guarded_remove, if_neg hnd, alookup_setMany_not_mem _ _ hnoti]

theorem removeInactive_WF (dev : String) (now timeout : Nat) (st : Engine) (store : Store)
    (h : storeWF store) : storeWF (removeInactive dev now timeout st store).2 := by
  unfold removeInactive
  dsimp only
  split_ifs
  · exact h
  · exact storeWF_setMany _ _ (storeWF_removeKeys _ _ h)

theorem gcCore_WF (dev : String) (st : Engine) (store : Store) (h : storeWF store) :
    storeWF (gcCore dev st store).2 := by
  rcases gcCore_cases dev st store with hr | ⟨hr, _⟩
  · rw [hr]
    exact h
  · dsimp only at hr
    rw [hr]
    dsimp only
    split_ifs
    · exact storeWF_setMany _ _ h
    · exact storeWF_removeKeys _ _ (storeWF_setMany _ _ h)

theorem performGC_WF (cfg : Config) (dev : String) (now : Nat) (st : Engine) (store : Store)
    (h : storeWF store) : storeWF (performGC cfg dev now st store).2 := by
  unfold performGC
  dsimp only
  split_ifs
  · exact gcCore_WF _ _ _ (removeInactive_WF _ _ _ _ _ h)
  · exact gcCore_WF _ _ _ h

/-- The meta loop never decreases an existing `knownIncrements` entry. -/
theorem processMetas_mono (dev : String) (A : Store) :
    ∀ (entries : List (Key × Val)) (ki : List (String × Nat)) (acc : List (Event × String))
      (ki' : List (String × Nat)) (acc' : List (Event × String)) (d : String) (v : Nat),
      processMetas dev A entries ki acc = .ok (ki', acc') →
      alookup ki d = some v →
      ∃ v', alookup ki' d = some v' ∧ v ≤ v' := by
  intro entries
  induction entries with
  | nil =>
    intro ki acc ki' acc' d v hp hv
    simp only [processMetas] at hp
    injection hp with hp
    injection hp with hp1 hp2
    subst hp1
    exact ⟨v, hv, le_refl v⟩
  | cons hd rest ih =>
    intro ki acc ki' acc' d v hp hv
    obtain ⟨k₁, v₁⟩ := hd
    match k₁ with
    | Key.m d₁ =>
      rw [processMetas] at hp
      by_cases hdev : d₁ = dev
      · rw [if_pos hdev] at hp
        exact ih ki acc ki' acc' d v hp hv
      · rw [if_neg hdev] at hp
        by_cases hdd : d = d₁
        · subst hdd
          rw [hv] at hp
          dsimp only at hp
          by_cases hgt : (asMetaV v₁).last_increment > v
          · rw [if_pos hgt] at hp
            obtain ⟨v2, hv2, hle2⟩ := ih _ _ ki' acc' d ((asMetaV v₁).last_increment) hp
              (kiSet_self ki d _)
            exact ⟨v2, hv2, le_trans (le_of_lt hgt) hle2⟩
          · rw [if_neg hgt] at hp
            exact ih _ _ ki' acc' d v hp hv
        · rcases hki : alookup ki d₁ with _ | known
          · rw [hki] at hp
            dsimp only at hp
            by_cases hver : (asMetaV v₁).version < PROTOCOL_VERSION
            · rw [if_pos hver] at hp
              cases hp
            · rw [if_neg hver] at hp
              by_cases hgt : (asMetaV v₁).last_increment > 0
              · rw [if_pos hgt] at hp
                refine ih _ _ ki' acc' d v hp ?_
                rw [kiSet_other _ _ _ _ hdd, kiSet_other _ _ _ _ hdd]
                exact hv
              · rw [if_neg hgt] at hp
                refine ih _ _ ki' acc' d v hp ?_
                rw [kiSet_other _ _ _ _ hdd]
                exact hv
          · rw [hki] at hp
            dsimp only at hp
            by_cases hgt : (asMetaV v₁).last_increment > known
            · rw [if_pos hgt] at hp
              refine ih _ _ ki' acc' d v hp ?_
              rw [kiSet_other _ _ _ _ hdd]
              exact hv
            · rw [if_neg hgt] at hp
              exact ih _ _ ki' acc' d v hp hv
    | Key.e d₁ i₁ =>
      have hp' : processMetas dev A rest ki acc = .ok (ki', acc') := by
        rw [processMetas] at hp
        · exact hp
        · intro d' v' h
          cases h
      exact ih _ _ ki' acc' d v hp' hv
    | Key.b d₁ =>
      have hp' : processMetas dev A rest ki acc = .ok (ki', acc') := by
        rw [processMetas] at hp
        · exact hp
        · intro d' v' h
          cases h
      exact ih _ _ ki' acc' d v hp' hv
    | Key.s d₁ =>
      have hp' : processMetas dev A rest ki acc = .ok (ki', acc') := by
        rw [processMetas] at hp
        · exact hp
        · intro d' v' h
          cases h
      exact ih _ _ ki' acc' d v hp' hv

/-- After the meta loop, every remote meta entry in the snapshot is covered
by `knownIncrements`. -/
theorem processMetas_covers (dev : String) (A : Store) :
    ∀ (entries : List (Key × Val)) (ki : List (String × Nat)) (acc : List (Event × String))
      (ki' : List (String × Nat)) (acc' : List (Event × String)) (d : String) (v : Val),
      processMetas dev A entries ki acc = .ok (ki', acc') →
      (Key.m d, v) ∈ entries → d ≠ dev →
      ∃ k, alookup ki' d = some k ∧ (asMetaV v).last_increment ≤ k := by
  intro entries
  induction entries with
  | nil =>
    intro ki acc ki' acc' d v _ hmem
    cases hmem
  | cons hd rest ih =>
    intro ki acc ki' acc' d v hp hmem hd2
    obtain ⟨k₁, v₁⟩ := hd
    rcases List.mem_cons.mp hmem with he | ht
    · -- the target entry is the head
      have hk : k₁ = Key.m d := (congrArg Prod.fst he).symm
      have hv : v₁ = v := (congrArg Prod.snd he).symm
      subst hk
      subst hv
      rw [processMetas, if_neg hd2] at hp
      rcases hki : alookup ki d with _ | known
      · rw [hki] at hp
        dsimp only at hp
        by_cases hver : (asMetaV v₁).version < PROTOCOL_VERSION
        · rw [if_pos hver] at hp
          cases hp
        · rw [if_neg hver] at hp
          by_cases hgt : (asMetaV v₁).last_increment > 0
          · rw [if_pos hgt] at hp
            obtain ⟨v2, hv2, hle2⟩ := processMetas_mono dev A rest _ _ ki' acc' d _ hp
              (kiSet_self _ d _)
            exact ⟨v2, hv2, hle2⟩
          · rw [if_neg hgt] at hp
            obtain ⟨v2, hv2, hle2⟩ := processMetas_mono dev A rest _ _ ki' acc' d 0 hp
              (kiSet_self _ d _)
            exact ⟨v2, hv2, by omega⟩
      · rw [hki] at hp
        dsimp only at hp
        by_cases hgt : (asMetaV v₁).last_increment > known
        · rw [if_pos hgt] at hp
          obtain ⟨v2, hv2, hle2⟩ := processMetas_mono dev A rest _ _ ki' acc' d _ hp
            (kiSet_self _ d _)
          exact ⟨v2, hv2, hle2⟩
        · rw [if_neg hgt] at hp
          obtain ⟨v2, hv2, hle2⟩ := processMetas_mono dev A rest _ _ ki' acc' d known hp hki
          exact ⟨v2, hv2, by omega⟩
    · -- the target entry is in the tail: find the recursive call
      match k₁ with
      | Key.m d₁ =>
        rw [processMetas] at hp
        by_cases hdev : d₁ = dev
        · rw [if_pos hdev] at hp
          exact ih _ _ ki' acc' d v hp ht hd2
        · rw [if_neg hdev] at hp
          rcases hki : alookup ki d₁ with _ | known
          · rw [hki] at hp
            dsimp only at hp
            by_cases hver : (asMetaV v₁).version < PROTOCOL_VERSION
            · rw [if_pos hver] at hp
              cases hp
            · rw [if_neg hver] at hp
              by_cases hgt : (asMetaV v₁).last_increment > 0
              · rw [if_pos hgt] at hp
                exact ih _ _ ki' acc' d v hp ht hd2
              · rw [if_neg hgt] at hp
                exact ih _ _ ki' acc' d v hp ht hd2
          · rw [hki] at hp
            dsimp only at hp
            by_cases hgt : (asMetaV v₁).last_increment > known
            · rw [if_pos hgt] at hp
              exact ih _ _ ki' acc' d v hp ht hd2
            · rw [if_neg hgt] at hp
              exact ih _ _ ki' acc' d v hp ht hd2
      | Key.e d₁ i₁ =>
        have hp' : processMetas dev A rest ki acc = .ok (ki', acc') := by
          rw [processMetas] at hp
          · exact hp
          · intro d' v' h
            cases h
        exact ih _ _ ki' acc' d v hp' ht hd2
      | Key.b d₁ =>
        have hp' : processMetas dev A rest ki acc = .ok (ki', acc') := by
          rw [processMetas] at hp
          · exact hp
          · intro d' v' h
            cases h
        exact ih _ _ ki' acc' d v hp' ht hd2
      | Key.s d₁ =>
        have hp' : processMetas dev A rest ki acc = .ok (ki', acc') := by
          rw [processMetas] at hp
          · exact hp
          · intro d' v' h
            cases h
        exact ih _ _ ki' acc' d v hp' ht hd2

/-- When every remote meta entry is already covered by `knownIncrements`,
the meta loop is a no-op: it returns the same `knownIncrements` and
collects no events. -/
theorem processMetas_noop (dev : String) (A : Store) :
    ∀ (entries : List (Key × Val)) (ki : List (String × Nat)) (acc : List (Event × String)),
      (∀ d v, (Key.m d, v) ∈ entries → d ≠ dev →
        ∃ k, alookup ki d = some k ∧ (asMetaV v).last_increment ≤ k) →
      processMetas dev A entries ki acc = .ok (ki, acc) := by
  intro entries
  induction entries with
  | nil => intro ki acc _; rfl
  | cons hd rest ih =>
    intro ki acc hcov
    obtain ⟨k₁, v₁⟩ := hd
    have hcovrest : ∀ d v, (Key.m d, v) ∈ rest → d ≠ dev →
        ∃ k, alookup ki d = some k ∧ (asMetaV v).last_increment ≤ k :=
      fun d v hm hd => hcov d v (List.mem_cons_of_mem _ hm) hd
    match k₁ with
    | Key.m d₁ =>
      rw [processMetas]
      by_cases hdev : d₁ = dev
      · rw [if_pos hdev]
        exact ih ki acc hcovrest
      · rw [if_neg hdev]
        obtain ⟨k, hk, hle⟩ := hcov d₁ v₁ (List.mem_cons_self _ _) hdev
        rw [hk]
        dsimp only
        rw [if_neg (by omega)]
        exact ih ki acc hcovrest
    | Key.e d₁ i₁ =>
      rw [processMetas]
      · exact ih ki acc hcovrest
      · intro d' v' h
        cases h
    | Key.b d₁ =>
      rw [processMetas]
      · exact ih ki acc hcovrest
      · intro d' v' h
        cases h
    | Key.s d₁ =>
      rw [processMetas]
      · exact ih ki acc hcovrest
      · intro d' v' h
        cases h

theorem alookup_set_s_frame (store : Store) (dev : String) (x : Val) (k : Key)
    (hk : k ≠ Key.s dev) :
    alookup (setMany store [(Key.s dev, x)]) k = alookup store k := by
  refine alookup_setMany_not_mem _ _ ?_ store
  intro v hv
  simp only [List.mem_singleton, Prod.mk.injEq] at hv
  exact hk hv.1

theorem sync_ok_inv (cfg : Config) (dev : String) (now : Nat) (st : Engine) (store : Store)
    (st2 : Engine) (store2 : Store) (n : Nat)
    (hflag : cfg.removeInactiveDevices = false)
    (h : sync cfg dev now st store = .ok (st2, store2, n)) :
    ∃ ki evs,
      processMetas dev (getAllME store) (getAllME store) st.knownIncrements [] = .ok (ki, evs) ∧
      st2.knownIncrements = ki ∧
      (∀ d, d ≠ dev → alookup store2 (Key.m d) = alookup store (Key.m d)) ∧
      (st2.lastActivityUpdate = now ∨
        (st2.lastActivityUpdate = st.lastActivityUpdate ∧
          ¬ (now - st.lastActivityUpdate > oneDayMs))) ∧
      (storeWF store → storeWF store2) := by
  unfold sync at h
  dsimp only at h
  rcases hp : processMetas dev (getAllME store) (getAllME store) st.knownIncrements []
    with er | ⟨ki, evs⟩
  · rw [hp] at h
    cases h
  · rw [hp] at h
    dsimp only at h
    refine ⟨ki, evs, rfl, ?_⟩
    by_cases hor : ((insertionSortBy evLe evs).length > 0 ∨ now - st.lastActivityUpdate > oneDayMs)
    · rw [if_pos hor] at h
      by_cases hsu : now - st.lastActivityUpdate > oneDayMs
      · rw [if_pos hsu] at h
        dsimp only at h
        by_cases hgc : st.syncs_since_gc + 1 ≥ cfg.gcFrequency
        · rw [if_pos hgc] at h
          injection h with h
          have h1 := congrArg (fun t : Engine × Store × Nat => t.1) h
          have h2 := congrArg (fun t : Engine × Store × Nat => t.2.1) h
          dsimp only at h1 h2
          rw [← h1, ← h2]
          refine ⟨(performGC_noflag_preserves cfg dev now _ _ hflag).1, ?_,
            Or.inl (performGC_noflag_preserves cfg dev now _ _ hflag).2.1, ?_⟩
          · intro d hd
            rw [performGC_noflag_frame_m cfg dev now _ _ hflag d hd]
            exact alookup_set_s_frame store dev _ (Key.m d) (by simp)
          · intro hwf
            exact performGC_WF cfg dev now _ _ (storeWF_setMany _ _ hwf)
        · rw [if_neg hgc] at h
          injection h with h
          have h1 := congrArg (fun t : Engine × Store × Nat => t.1) h
          have h2 := congrArg (fun t : Engine × Store × Nat => t.2.1) h
          dsimp only at h1 h2
          rw [← h1, ← h2]
          refine ⟨rfl, ?_, Or.inl rfl, ?_⟩
          · intro d hd
            exact alookup_set_s_frame store dev _ (Key.m d) (by simp)
          · intro hwf
            exact storeWF_setMany _ _ hwf
      · rw [if_neg hsu] at h
        dsimp only at h
        by_cases hgc : st.syncs_since_gc + 1 ≥ cfg.gcFrequency
        · rw [if_pos hgc] at h
          injection h with h
          have h1 := congrArg (fun t : Engine × Store × Nat => t.1) h
          have h2 := congrArg (fun t : Engine × Store × Nat => t.2.1) h
          dsimp only at h1 h2
          rw [← h1, ← h2]
          refine ⟨(performGC_noflag_preserves cfg dev now _ _ hflag).1, ?_,
            Or.inr ⟨(performGC_noflag_preserves cfg dev now _ _ hflag).2.1, hsu⟩, ?_⟩
          · intro d hd
            rw [performGC_noflag_frame_m cfg dev now _ _ hflag d hd]
            exact alookup_set_s_frame store dev _ (Key.m d) (by simp)
          · intro hwf
            exact performGC_WF cfg dev now _ _ (storeWF_setMany _ _ hwf)
        · rw [if_neg hgc] at h
          injection h with h
          have h1 := congrArg (fun t : Engine × Store × Nat => t.1) h
          have h2 := congrArg (fun t : Engine × Store × Nat => t.2.1) h
          dsimp only at h1 h2
          rw [← h1, ← h2]
          refine ⟨rfl, ?_, Or.inr ⟨rfl, hsu⟩, ?_⟩
          · intro d hd
            exact alookup_set_s_frame store dev _ (Key.m d) (by simp)
          · intro hwf
            exact storeWF_setMany _ _ hwf
    · rw [if_neg hor] at h
      dsimp only at h
      have hsu : ¬ (now - st.lastActivityUpdate > oneDayMs) := fun hc => hor (Or.inr hc)
      by_cases hgc : st.syncs_since_gc + 1 ≥ cfg.gcFrequency
      · rw [if_pos hgc] at h
        injection h with h
        have h1 := congrArg (fun t : Engine × Store × Nat => t.1) h
        have h2 := congrArg (fun t : Engine × Store × Nat => t.2.1) h
        dsimp only at h1 h2
        rw [← h1, ← h2]
        refine ⟨(performGC_noflag_preserves cfg dev now _ _ hflag).1, ?_,
          Or.inr ⟨(performGC_noflag_preserves cfg dev now _ _ hflag).2.1, hsu⟩, ?_⟩
        · intro d hd
          exact performGC_noflag_frame_m cfg dev now _ _ hflag d hd
        · intro hwf
          exact performGC_WF cfg dev now _ _ hwf
      · rw [if_neg hgc] at h
        injection h with h
        have h1 := congrArg (fun t : Engine × Store × Nat => t.1) h
        have h2 := congrArg (fun t : Engine × Store × Nat => t.2.1) h
        dsimp only at h1 h2
        rw [← h1, ← h2]
        exact ⟨rfl, fun d hd => rfl, Or.inr ⟨rfl, hsu⟩, fun hwf => hwf⟩

theorem sync_of_noop (cfg : Config) (dev : String) (now : Nat) (st : Engine) (store : Store)
    (hflag : cfg.removeInactiveDevices = false)
    (hp : processMetas dev (getAllME store) (getAllME store) st.knownIncrements [] =
      .ok (st.knownIncrements, []))
    (hsu : ¬ (now - st.lastActivityUpdate > oneDayMs)) :
    ∃ st3 store3, sync cfg dev now st store = .ok (st3, store3, 0) ∧
      st3.knownIncrements = st.knownIncrements := by
  unfold sync
  dsimp only
  rw [hp]
  dsimp only
  have hor : ¬ ((insertionSortBy evLe ([] : List (Event × String))).length > 0 ∨
      now - st.lastActivityUpdate > oneDayMs) := by
    rintro (hx | hx)
    · simp [insertionSortBy] at hx
    · exact hsu hx
  rw [if_neg hor]
  by_cases hgc : st.syncs_since_gc + 1 ≥ cfg.gcFrequency
  · rw [if_pos hgc]
    refine ⟨_, _, rfl, ?_⟩
    exact (performGC_noflag_preserves cfg dev now _ _ hflag).1
  · rw [if_neg hgc]
    exact ⟨_, _, rfl, rfl⟩

/-- C7 (amended): with `removeInactiveDevices` disabled, a second `sync`
immediately after a successful one — with no store mutations in between —
succeeds, applies zero events, and leaves `knownIncrements` exactly as the
first sync left it. -/
theorem sync_idempotent (cfg : Config) (dev : String) (now : Nat) (st1 : Engine)
    (store1 : Store) (st2 : Engine) (store2 : Store) (n1 : Nat)
    (hflag : cfg.removeInactiveDevices = false)
    (hwf : storeWF store1)
    (h1 : sync cfg dev now st1 store1 = .ok (st2, store2, n1)) :
    ∃ st3 store3, sync cfg dev now st2 store2 = .ok (st3, store3, 0) ∧
      st3.knownIncrements = st2.knownIncrements := by
  obtain ⟨ki, evs, hp, hki2, hframe, hlau, hwf2f⟩ :=
    sync_ok_inv cfg dev now st1 store1 st2 store2 n1 hflag h1
  have hwf2 : storeWF store2 := hwf2f hwf
  have hcov : ∀ d v, (Key.m d, v) ∈ getAllME store2 → d ≠ dev →
      ∃ k, alookup st2.knownIncrements d = some k ∧ (asMetaV v).last_increment ≤ k := by
    intro d v hmem hd
    have hwfE : ((getAllME store2).map Prod.fst).Nodup := storeWF_filter _ _ hwf2
    have hl2 : alookup (getAllME store2) (Key.m d) = some v :=
      mem_alookup_of_nodup _ _ _ hwfE hmem
    have hl3 : alookup store2 (Key.m d) = some v := by
      rw [← alookup_filter_of_pred (fun kv => isMKey kv.1 || isEKey kv.1) store2 (Key.m d)
        (fun v' => by simp [isMKey])]
      exact hl2
    have hl4 : alookup store1 (Key.m d) = some v := by
      rw [← hframe d hd]
      exact hl3
    have hl5 : alookup (getAllME store1) (Key.m d) = some v := by
      unfold getAllME
      rw [alookup_filter_of_pred _ _ _ (fun v' => by simp [isMKey])]
      exact hl4
    have hmem1 : (Key.m d, v) ∈ getAllME store1 := alookup_mem _ _ _ hl5
    obtain ⟨k, hk, hle⟩ := processMetas_covers dev (getAllME store1) (getAllME store1)
      st1.knownIncrements [] ki evs d v hp hmem1 hd
    exact ⟨k, by rw [hki2]; exact hk, hle⟩
  have hnoop := processMetas_noop dev (getAllME store2) (getAllME store2)
    st2.knownIncrements [] hcov
  have hsu2 : ¬ (now - st2.lastActivityUpdate > oneDayMs) := by
    rcases hlau with hl | ⟨hl, hn⟩
    · rw [hl]
      omega
    · rw [hl]
      exact hn
  exact sync_of_noop cfg dev now st2 store2 hflag hnoop hsu2

/-- C7 (counterexample): two consecutive syncs with no intervening store
mutations, `removeInactiveDevices` enabled and `gcFrequency = 2`.  The
second sync applies zero events but triggers GC, whose eviction step
deletes the inactive peer `B` from `knownIncrements`: the map after the
second call differs from the map after the first, refuting the claim as
stated. -/
theorem sync_twice_knownIncrements_differ :
    sync cfgC "A" 10000000000000 stC storeC = .ok (stC2, storeC2, 0) ∧
      sync cfgC "A" 10000000000000 stC2 storeC2 = .ok (stC3, storeC3, 0) ∧
      stC3.knownIncrements ≠ stC2.knownIncrements := by
  refine ⟨by decide, by decide, by decide⟩

/-- Witness for the amended C7 theorem at a concrete input: the first sync
applies one event from `B`; the second applies zero and keeps
`knownIncrements` intact. -/
theorem sync_idempotent_witness :
    cfgR.removeInactiveDevices = false ∧ storeWF storeW ∧
      sync cfgR "A" 0 stW storeW = .ok (stW2, storeW2, 1) ∧
      ∃ st3 store3, sync cfgR "A" 0 stW2 storeW2 = .ok (st3, store3, 0) ∧
        st3.knownIncrements = stW2.knownIncrements := by
  refine ⟨rfl, by decide, by decide, ?_⟩
  exact sync_idempotent cfgR "A" 0 stW storeW stW2 storeW2 1 rfl (by decide) (by decide)

end EventSync
